import Mathlib

/-!
# Verification of the icosphere mesh generator

The repository builds a geodesic icosahedron ("icosphere"): for a subdivision
frequency ν, every edge of a regular icosahedron is split into ν segments and
every face into ν² triangular faces, the new vertices being merged along shared
edges and finally projected onto the unit sphere.

The development below is a shallow embedding of that pipeline:
* `Q5` — the field ℚ(√5), in which all pre-projection coordinates live
  (the icosahedron coordinates are built from the golden ratio φ = (1+√5)/2);
* `Vec3` — 3-vectors over an arbitrary commutative ring;
* `icoRaw`, `icoFaces`, `icoEdges` — the base icosahedron tables;
* `VKey`, `kf`, `vkeys`, `idx` — the canonical-key vertex deduplication;
* `latticePos`, `keyPos` — barycentric lattice positions;
* `meshFaces`, `icosphere` — the assembled mesh;
* `emb`, `normalizeV` — the embedding ℚ(√5) → ℝ and unit-sphere projection.
-/

/-- Numbers of the form a + b·√5 with a, b : ℚ, represented exactly. -/
@[ext]
structure Q5 where
  a : ℚ
  b : ℚ
  deriving DecidableEq, Repr

namespace Q5

instance : Zero Q5 := ⟨⟨0, 0⟩⟩

instance : One Q5 := ⟨⟨1, 0⟩⟩

instance : Add Q5 := ⟨fun p q => ⟨p.a + q.a, p.b + q.b⟩⟩

instance : Neg Q5 := ⟨fun p => ⟨-p.a, -p.b⟩⟩

instance : Mul Q5 := ⟨fun p q => ⟨p.a * q.a + 5 * (p.b * q.b), p.a * q.b + p.b * q.a⟩⟩

instance : Sub Q5 := ⟨fun p q => p + -q⟩

@[simp] theorem zero_a : (0 : Q5).a = 0 := rfl

@[simp] theorem zero_b : (0 : Q5).b = 0 := rfl

@[simp] theorem one_a : (1 : Q5).a = 1 := rfl

@[simp] theorem one_b : (1 : Q5).b = 0 := rfl

@[simp] theorem add_a (p q : Q5) : (p + q).a = p.a + q.a := rfl

@[simp] theorem add_b (p q : Q5) : (p + q).b = p.b + q.b := rfl

@[simp] theorem neg_a (p : Q5) : (-p).a = -p.a := rfl

@[simp] theorem neg_b (p : Q5) : (-p).b = -p.b := rfl

@[simp] theorem mul_a (p q : Q5) : (p * q).a = p.a * q.a + 5 * (p.b * q.b) := rfl

@[simp] theorem mul_b (p q : Q5) : (p * q).b = p.a * q.b + p.b * q.a := rfl

@[simp] theorem sub_a (p q : Q5) : (p - q).a = p.a - q.a := by
  show (p + -q).a = _ ; simp ; ring

@[simp] theorem sub_b (p q : Q5) : (p - q).b = p.b - q.b := by
  show (p + -q).b = _ ; simp ; ring

instance : CommRing Q5 :=
  { add := (· + ·), zero := (0 : Q5), mul := (· * ·), one := (1 : Q5),
    neg := Neg.neg, sub := Sub.sub,
    add_assoc := by intros ; ext <;> simp <;> ring
    zero_add := by intros ; ext <;> simp
    add_zero := by intros ; ext <;> simp
    add_comm := by intros ; ext <;> simp <;> ring
    left_distrib := by intros ; ext <;> simp <;> ring
    right_distrib := by intros ; ext <;> simp <;> ring
    zero_mul := by intros ; ext <;> simp
    mul_zero := by intros ; ext <;> simp
    mul_assoc := by intros ; ext <;> simp <;> ring
    one_mul := by intros ; ext <;> simp
    mul_one := by intros ; ext <;> simp
    mul_comm := by intros ; ext <;> simp <;> ring
    neg_add_cancel := by intros ; ext <;> simp
    sub_eq_add_neg := by intros ; rfl
    nsmul := fun n p => ⟨n * p.a, n * p.b⟩
    nsmul_zero := by intros ; ext <;> simp
    nsmul_succ := by intros ; ext <;> simp <;> ring
    zsmul := fun n p => ⟨n * p.a, n * p.b⟩
    zsmul_zero' := by intros ; ext <;> simp
    zsmul_succ' := by intros ; ext <;> push_cast <;> simp <;> ring
    zsmul_neg' := by intros ; ext <;> push_cast <;> simp <;> ring }

/-- Inclusion of the rationals into ℚ(√5). -/
def qr (x : ℚ) : Q5 := ⟨x, 0⟩

@[simp] theorem qr_a (x : ℚ) : (qr x).a = x := rfl

@[simp] theorem qr_b (x : ℚ) : (qr x).b = 0 := rfl

@[simp] theorem qr_add (x y : ℚ) : qr (x + y) = qr x + qr y := by ext <;> simp

@[simp] theorem qr_mul (x y : ℚ) : qr (x * y) = qr x * qr y := by ext <;> simp

@[simp] theorem qr_one : qr 1 = 1 := by ext <;> simp

@[simp] theorem qr_zero : qr 0 = 0 := by ext <;> simp

/-- The golden ratio φ = (1+√5)/2 as an element of ℚ(√5). -/
def phi : Q5 := ⟨1/2, 1/2⟩

end Q5

/-- A 3-vector with components in α. -/
@[ext]
structure Vec3 (α : Type) where
  x : α
  y : α
  z : α
  deriving DecidableEq, Repr

namespace Vec3

variable {α : Type}

instance [Add α] : Add (Vec3 α) := ⟨fun u v => ⟨u.x + v.x, u.y + v.y, u.z + v.z⟩⟩

instance [Sub α] : Sub (Vec3 α) := ⟨fun u v => ⟨u.x - v.x, u.y - v.y, u.z - v.z⟩⟩

instance [Zero α] : Zero (Vec3 α) := ⟨⟨0, 0, 0⟩⟩

/-- Scalar multiplication on 3-vectors. -/
instance [Mul α] : SMul α (Vec3 α) := ⟨fun s v => ⟨s * v.x, s * v.y, s * v.z⟩⟩

@[simp] theorem add_x [Add α] (u v : Vec3 α) : (u + v).x = u.x + v.x := rfl

@[simp] theorem add_y [Add α] (u v : Vec3 α) : (u + v).y = u.y + v.y := rfl

@[simp] theorem add_z [Add α] (u v : Vec3 α) : (u + v).z = u.z + v.z := rfl

@[simp] theorem sub_x [Sub α] (u v : Vec3 α) : (u - v).x = u.x - v.x := rfl

@[simp] theorem sub_y [Sub α] (u v : Vec3 α) : (u - v).y = u.y - v.y := rfl

@[simp] theorem sub_z [Sub α] (u v : Vec3 α) : (u - v).z = u.z - v.z := rfl

@[simp] theorem smul_x [Mul α] (s : α) (v : Vec3 α) : (s • v).x = s * v.x := rfl

@[simp] theorem smul_y [Mul α] (s : α) (v : Vec3 α) : (s • v).y = s * v.y := rfl

@[simp] theorem smul_z [Mul α] (s : α) (v : Vec3 α) : (s • v).z = s * v.z := rfl

@[simp] theorem zero_x [Zero α] : (0 : Vec3 α).x = 0 := rfl

@[simp] theorem zero_y [Zero α] : (0 : Vec3 α).y = 0 := rfl

@[simp] theorem zero_z [Zero α] : (0 : Vec3 α).z = 0 := rfl

/-- Euclidean inner product. -/
def dot [Add α] [Mul α] (u v : Vec3 α) : α := u.x * v.x + (u.y * v.y + u.z * v.z)

/-- Cross product. -/
def cross [Sub α] [Mul α] (u v : Vec3 α) : Vec3 α :=
  ⟨u.y * v.z - u.z * v.y, u.z * v.x - u.x * v.z, u.x * v.y - u.y * v.x⟩

theorem dot_cross_self_left [CommRing α] (u v : Vec3 α) : dot u (cross u v) = 0 := by
  simp [dot, cross] ; ring

theorem dot_cross_self_right [CommRing α] (u v : Vec3 α) : dot v (cross u v) = 0 := by
  simp [dot, cross] ; ring

theorem dot_zero_left [CommRing α] (v : Vec3 α) : dot 0 v = 0 := by
  simp [dot]

end Vec3

open Q5 Vec3

/-- Modelled from the spec: the 12 canonical icosahedron vertices (file
`icosphere.py` is not part of the provided sources).  Spec §4.1: "the 12
canonical vertices (coordinates derived from the golden ratio …) … grouped by
the three orthogonal golden rectangles".  These are the points (±1, ±φ, 0),
(0, ±1, ±φ), (±φ, 0, ±1); normalization to unit length is performed by the
sphere projection stage.  Arguments ≥ 12 return a junk value. -/
def icoRaw : ℕ → Vec3 Q5
  | 0 => ⟨qr (-1), phi, qr 0⟩
  | 1 => ⟨qr 1, phi, qr 0⟩
  | 2 => ⟨qr (-1), -phi, qr 0⟩
  | 3 => ⟨qr 1, -phi, qr 0⟩
  | 4 => ⟨qr 0, qr (-1), phi⟩
  | 5 => ⟨qr 0, qr 1, phi⟩
  | 6 => ⟨qr 0, qr (-1), -phi⟩
  | 7 => ⟨qr 0, qr 1, -phi⟩
  | 8 => ⟨phi, qr 0, qr (-1)⟩
  | 9 => ⟨phi, qr 0, qr 1⟩
  | 10 => ⟨-phi, qr 0, qr (-1)⟩
  | 11 => ⟨-phi, qr 0, qr 1⟩
  | _ => ⟨qr 0, qr 0, qr 0⟩

/-- Modelled from the spec: the 20 triangular faces of the base icosahedron,
each a triple of indices into `icoRaw`, wound so that the outward normal
points away from the origin (spec §4.1). -/
def icoFaces : List (ℕ × ℕ × ℕ) :=
  [(0, 11, 5), (0, 5, 1), (0, 1, 7), (0, 7, 10), (0, 10, 11),
   (1, 5, 9), (5, 11, 4), (11, 10, 2), (10, 7, 6), (7, 1, 8),
   (3, 9, 4), (3, 4, 2), (3, 2, 6), (3, 6, 8), (3, 8, 9),
   (4, 9, 5), (2, 4, 11), (6, 2, 10), (8, 6, 7), (9, 8, 1)]

/-- The corner triple of base face number fi. -/
def faceAt (fi : ℕ) : ℕ × ℕ × ℕ := icoFaces.getD fi (0, 0, 0)

/-- Outward normal direction of a base face (cross product of its edge
vectors), before any normalization. -/
def faceNormal (fi : ℕ) : Vec3 Q5 :=
  cross (icoRaw (faceAt fi).2.1 - icoRaw (faceAt fi).1)
    (icoRaw (faceAt fi).2.2 - icoRaw (faceAt fi).1)

/-- Modelled from the spec: the 30 undirected edges of the base icosahedron,
as sorted index pairs.  Spec §4.3 keys boundary lattice points by "which
global edge … of the icosahedron a lattice point falls on, plus its integer
offset along that edge". -/
def icoEdges : List (ℕ × ℕ) :=
  [(0, 11), (5, 11), (0, 5), (1, 5), (0, 1), (1, 7), (0, 7), (7, 10), (0, 10),
   (10, 11), (5, 9), (1, 9), (4, 11), (4, 5), (2, 10), (2, 11), (6, 7), (6, 10),
   (1, 8), (7, 8), (3, 9), (4, 9), (3, 4), (2, 4), (2, 3), (2, 6), (3, 6),
   (6, 8), (3, 8), (8, 9)]

/-- Index of the undirected edge {u, v} in `icoEdges`. -/
def edgeIndex (u v : ℕ) : ℕ := icoEdges.findIdx (fun p => p = (min u v, max u v))

/-- Modelled from the spec: the canonical deduplication key of a lattice
point (spec §4.3): a shared base vertex, or a global icosahedron edge with an
integer offset along it, or a face-interior point. -/
inductive VKey where
  | corner (c : ℕ)
  | onEdge (e : ℕ) (k : ℕ)
  | inner (f : ℕ) (i : ℕ) (j : ℕ)
  deriving DecidableEq, Repr

/-- Key of a boundary lattice point at offset k along the directed base edge
u → v: the offset is re-measured from the smaller endpoint, so that both
faces flanking the edge produce the same key (spec §4.3 (b)). -/
def edgeKey (ν u v k : ℕ) : VKey :=
  if u < v then .onEdge (edgeIndex u v) k else .onEdge (edgeIndex u v) (ν - k)

/-- Modelled from the spec: canonical key of the lattice point (i, j) of base
face fi at frequency ν (spec §4.3): the three face corners map to the shared
base vertices, points on the three sides map to (edge, offset) keys, and
interior points are fresh per face. -/
def kf (ν fi i j : ℕ) : VKey :=
  if i = 0 ∧ j = 0 then .corner (faceAt fi).1
  else if i = ν ∧ j = 0 then .corner (faceAt fi).2.1
  else if i = 0 ∧ j = ν then .corner (faceAt fi).2.2
  else if j = 0 then edgeKey ν (faceAt fi).1 (faceAt fi).2.1 i
  else if i = 0 then edgeKey ν (faceAt fi).1 (faceAt fi).2.2 j
  else if i + j = ν then edgeKey ν (faceAt fi).2.1 (faceAt fi).2.2 j
  else .inner fi i j

/-- All pairs (i, j) of naturals with i + j < m, in row-major order. -/
def ijLt (m : ℕ) : List (ℕ × ℕ) :=
  (List.range m).flatMap (fun i => (List.range (m - i)).map (fun j => (i, j)))

/-- The lattice of a face at frequency ν: all (i, j) with i + j ≤ ν. -/
def latticePts (ν : ℕ) : List (ℕ × ℕ) := ijLt (ν + 1)

/-- Modelled from the spec: the canonical enumeration of all deduplicated
vertex keys — the 12 base vertices first, then the interior points of the 30
edges (ν − 1 each), then the interior points of the 20 faces (spec §5:
"assign indices in a fixed face/lattice-point enumeration order"). -/
def vkeys (ν : ℕ) : List VKey :=
  (List.range 12).map VKey.corner
    ++ (List.range 30).flatMap
        (fun e => (List.range (ν - 1)).map (fun k => VKey.onEdge e (k + 1)))
    ++ (List.range 20).flatMap
        (fun fi => (ijLt (ν - 2)).map (fun p => VKey.inner fi (p.1 + 1) (p.2 + 1)))

/-- The global vertex index of a key: its position in `vkeys`. -/
def idx (ν : ℕ) (k : VKey) : ℕ := List.indexOf k (vkeys ν)

/-- Modelled from the spec: the sub-triangles of one base face, as key
triples — the "up" triangle at (i, j) for i + j < ν and the "down" triangle
at (i, j) for i + j < ν − 1, each wound like the parent face (spec §4.2,
§4.5). -/
def keyFacesOf (ν fi : ℕ) : List (VKey × VKey × VKey) :=
  (ijLt ν).map
      (fun p => (kf ν fi p.1 p.2, kf ν fi (p.1 + 1) p.2, kf ν fi p.1 (p.2 + 1)))
    ++ (ijLt (ν - 1)).map
      (fun p => (kf ν fi (p.1 + 1) p.2, kf ν fi (p.1 + 1) (p.2 + 1), kf ν fi p.1 (p.2 + 1)))

/-- All sub-triangles of all 20 base faces, as key triples. -/
def keyFaces (ν : ℕ) : List (VKey × VKey × VKey) :=
  (List.range 20).flatMap (keyFacesOf ν)

/-- The output face list: global index triples. -/
def meshFaces (ν : ℕ) : List (ℕ × ℕ × ℕ) :=
  (keyFaces ν).map (fun t => (idx ν t.1, idx ν t.2.1, idx ν t.2.2))

/-- The rational k/ν as an element of ℚ(√5). -/
def ofs (k ν : ℕ) : Q5 := qr ((k : ℚ) / (ν : ℚ))

/-- Modelled from the spec: the barycentric lattice position
A + (B − A)·(i/ν) + (C − A)·(j/ν) of lattice point (i, j) of face fi
(spec §4.2). -/
def latticePos (ν fi i j : ℕ) : Vec3 Q5 :=
  icoRaw (faceAt fi).1 + ofs i ν • (icoRaw (faceAt fi).2.1 - icoRaw (faceAt fi).1)
    + ofs j ν • (icoRaw (faceAt fi).2.2 - icoRaw (faceAt fi).1)

/-- The (pre-projection) position of a canonical vertex key: base vertices in
place, edge keys interpolated along their global edge from its smaller
endpoint, interior keys by the face lattice formula. -/
def keyPos (ν : ℕ) : VKey → Vec3 Q5
  | .corner c => icoRaw c
  | .onEdge e k =>
      icoRaw (icoEdges.getD e (0, 0)).1
        + ofs k ν • (icoRaw (icoEdges.getD e (0, 0)).2 - icoRaw (icoEdges.getD e (0, 0)).1)
  | .inner fi i j => latticePos ν fi i j

/-- The real value of an element of ℚ(√5). -/
noncomputable def emb (q : Q5) : ℝ := (q.a : ℝ) + (q.b : ℝ) * Real.sqrt 5

/-- Componentwise real value of a vector over ℚ(√5). -/
noncomputable def embV (v : Vec3 Q5) : Vec3 ℝ := ⟨emb v.x, emb v.y, emb v.z⟩

/-- Euclidean norm on real 3-vectors. -/
noncomputable def vnorm (v : Vec3 ℝ) : ℝ := Real.sqrt (dot v v)

/-- Modelled from the spec: the sphere projection v ↦ v / ‖v‖ (spec §4.4). -/
noncomputable def normalizeV (v : Vec3 ℝ) : Vec3 ℝ := (vnorm v)⁻¹ • v

/-- An output mesh: the ordered unique vertices and the face index triples. -/
structure Mesh where
  vertices : List (Vec3 ℝ)
  faces : List (ℕ × ℕ × ℕ)

/-- Modelled from the spec: the whole pipeline ν ↦ Mesh — lattice sampling,
canonical-key deduplication, sphere projection, mesh assembly (spec §2, §4).
The file `icosphere.py` itself is not among the provided sources, so the
pipeline is reconstructed from the specification. -/
noncomputable def icosphere (ν : ℕ) : Mesh :=
  { vertices := (vkeys ν).map (fun k => normalizeV (embV (keyPos ν k)))
    faces := meshFaces ν }

/-- The error taxonomy of the spec (§7): only `InvalidArgument`. -/
inductive IcoError where
  | invalidArgument (nu : ℚ)
  deriving DecidableEq

/-- Modelled from the spec: the checked entry point — a non-positive or
non-integral frequency fails fast with `InvalidArgument`, otherwise the
complete mesh is produced (spec §6, §7). -/
noncomputable def icosphereChecked (nu : ℚ) : Except IcoError Mesh :=
  if nu.den = 1 ∧ 1 ≤ nu then .ok (icosphere nu.num.toNat)
  else .error (.invalidArgument nu)

/-! ## Counting the lattice enumerations -/

theorem listSum_range (f : ℕ → ℕ) (m : ℕ) :
    ((List.range m).map f).sum = ∑ i ∈ Finset.range m, f i := by
  induction m with
  | zero => simp
  | succ n ih => rw [List.range_succ] ; simp [ih, Finset.sum_range_succ]

theorem length_ijLt_twice (m : ℕ) : 2 * (ijLt m).length = m * (m + 1) := by
  have h1 : (ijLt m).length = ∑ i ∈ Finset.range m, (m - i) := by
    unfold ijLt
    rw [List.length_flatMap]
    have hm : List.map (List.length ∘ fun i => (List.range (m - i)).map (fun j => (i, j)))
        (List.range m) = List.map (fun i => m - i) (List.range m) := by
      apply List.map_congr_left
      intro i _
      simp
    rw [hm, listSum_range]
  have h2 : ∑ i ∈ Finset.range m, (m - i) = ∑ i ∈ Finset.range m, (i + 1) := by
    rw [← Finset.sum_range_reflect]
    apply Finset.sum_congr rfl
    intro i hi
    rw [Finset.mem_range] at hi
    omega
  have h3 : (∑ i ∈ Finset.range m, i) * 2 = m * (m - 1) := Finset.sum_range_id_mul_two m
  have h4 : ∑ i ∈ Finset.range m, (i + 1) = (∑ i ∈ Finset.range m, i) + m := by
    rw [Finset.sum_add_distrib] ; simp
  have h5 : m * (m - 1) + 2 * m = m * (m + 1) := by
    cases m with
    | zero => simp
    | succ n => simp only [Nat.add_sub_cancel] ; ring
  omega

theorem mem_ijLt {m : ℕ} {p : ℕ × ℕ} : p ∈ ijLt m ↔ p.1 + p.2 < m := by
  unfold ijLt
  rw [List.mem_flatMap]
  constructor
  · rintro ⟨i, hi, hp⟩
    rw [List.mem_range] at hi
    rw [List.mem_map] at hp
    obtain ⟨j, hj, rfl⟩ := hp
    rw [List.mem_range] at hj
    simp only
    omega
  · intro h
    refine ⟨p.1, List.mem_range.mpr (by omega), List.mem_map.mpr
      ⟨p.2, List.mem_range.mpr (by omega), by simp⟩⟩

theorem pair_snd_injective (i : ℕ) : Function.Injective (fun j : ℕ => (i, j)) := by
  intro a b h
  simpa using h

theorem nodup_ijLt (m : ℕ) : (ijLt m).Nodup := by
  unfold ijLt
  rw [List.nodup_flatMap]
  constructor
  · intro i _
    exact (List.nodup_range _).map (pair_snd_injective i)
  · apply List.Pairwise.imp ?_ ((List.nodup_range m))
    intro a b hab
    intro p hp hq
    rw [List.mem_map] at hp hq
    obtain ⟨j, _, rfl⟩ := hp
    obtain ⟨j2, _, h2⟩ := hq
    exact hab (congrArg Prod.fst h2).symm

theorem length_constMapSum (n c : ℕ) (f : ℕ → List VKey)
    (hf : ∀ i ∈ List.range n, (f i).length = c) :
    (List.map (List.length ∘ f) (List.range n)).sum = n * c := by
  have hm : List.map (List.length ∘ f) (List.range n)
      = List.map (fun _ => c) (List.range n) := by
    apply List.map_congr_left
    intro i hi
    exact hf i hi
  rw [hm, listSum_range, Finset.sum_const, Finset.card_range, smul_eq_mul]

theorem length_vkeys (ν : ℕ) :
    (vkeys ν).length = 12 + 30 * (ν - 1) + 20 * (ijLt (ν - 2)).length := by
  unfold vkeys
  rw [List.length_append, List.length_append, List.length_map, List.length_range,
    List.length_flatMap, List.length_flatMap,
    length_constMapSum 30 (ν - 1) _ (fun i _ => by simp),
    length_constMapSum 20 ((ijLt (ν - 2)).length) _ (fun i _ => by simp)]

theorem length_keyFacesOf (ν fi : ℕ) :
    (keyFacesOf ν fi).length = (ijLt ν).length + (ijLt (ν - 1)).length := by
  unfold keyFacesOf
  rw [List.length_append, List.length_map, List.length_map]

theorem length_meshFaces (ν : ℕ) :
    (meshFaces ν).length = 20 * ((ijLt ν).length + (ijLt (ν - 1)).length) := by
  unfold meshFaces keyFaces
  rw [List.length_map, List.length_flatMap]
  have hm : List.map (List.length ∘ keyFacesOf ν) (List.range 20)
      = List.map (fun _ => (ijLt ν).length + (ijLt (ν - 1)).length) (List.range 20) := by
    apply List.map_congr_left
    intro i _
    exact length_keyFacesOf ν i
  rw [hm, listSum_range, Finset.sum_const, Finset.card_range, smul_eq_mul]

/-! ## Nodup of the key enumeration and the global index -/

theorem corner_injective : Function.Injective VKey.corner := by
  intro a b h
  simpa using h

theorem onEdge_succ_injective (e : ℕ) :
    Function.Injective (fun k => VKey.onEdge e (k + 1)) := by
  intro a b h
  simpa using h

theorem inner_shift_injective (fi : ℕ) :
    Function.Injective (fun p : ℕ × ℕ => VKey.inner fi (p.1 + 1) (p.2 + 1)) := by
  intro a b h
  simp only [VKey.inner.injEq, true_and] at h
  exact Prod.ext (by omega) (by omega)

theorem nodup_vkeys (ν : ℕ) : (vkeys ν).Nodup := by
  unfold vkeys
  rw [List.nodup_append, List.nodup_append]
  refine ⟨⟨?_, ?_, ?_⟩, ?_, ?_⟩
  · exact (List.nodup_range _).map corner_injective
  · rw [List.nodup_flatMap]
    constructor
    · intro e _
      exact (List.nodup_range _).map (onEdge_succ_injective e)
    · apply List.Pairwise.imp ?_ ((List.nodup_range 30))
      intro a b hab k hk hk2
      rw [List.mem_map] at hk hk2
      obtain ⟨o, _, rfl⟩ := hk
      obtain ⟨o2, _, h2⟩ := hk2
      exact hab ((VKey.onEdge.injEq _ _ _ _).mp h2).1.symm
  · intro k hk hk2
    rw [List.mem_map] at hk
    obtain ⟨c, _, rfl⟩ := hk
    rw [List.mem_flatMap] at hk2
    obtain ⟨e, _, hk2⟩ := hk2
    rw [List.mem_map] at hk2
    obtain ⟨o, _, h2⟩ := hk2
    exact VKey.noConfusion h2
  · rw [List.nodup_flatMap]
    constructor
    · intro fi _
      exact (nodup_ijLt _).map (inner_shift_injective fi)
    · apply List.Pairwise.imp ?_ ((List.nodup_range 20))
      intro a b hab k hk hk2
      rw [List.mem_map] at hk hk2
      obtain ⟨p, _, rfl⟩ := hk
      obtain ⟨p2, _, h2⟩ := hk2
      exact hab ((VKey.inner.injEq _ _ _ _ _ _).mp h2).1.symm
  · intro k hk hk2
    rw [List.mem_append] at hk
    rw [List.mem_flatMap] at hk2
    obtain ⟨fi, _, hk2⟩ := hk2
    rw [List.mem_map] at hk2
    obtain ⟨p, _, h2⟩ := hk2
    rcases hk with hk | hk
    · rw [List.mem_map] at hk
      obtain ⟨c, _, rfl⟩ := hk
      exact VKey.noConfusion h2
    · rw [List.mem_flatMap] at hk
      obtain ⟨e, _, hk⟩ := hk
      rw [List.mem_map] at hk
      obtain ⟨o, _, rfl⟩ := hk
      exact VKey.noConfusion h2

theorem idx_lt_length {ν : ℕ} {k : VKey} (h : k ∈ vkeys ν) :
    idx ν k < (vkeys ν).length :=
  List.indexOf_lt_length.mpr h

theorem idx_inj {ν : ℕ} {k k2 : VKey} (h : k ∈ vkeys ν) (h2 : k2 ∈ vkeys ν)
    (he : idx ν k = idx ν k2) : k = k2 :=
  (List.indexOf_inj h h2).mp he

theorem mem_vkeys_corner {ν c : ℕ} (hc : c < 12) : VKey.corner c ∈ vkeys ν := by
  unfold vkeys
  rw [List.mem_append, List.mem_append]
  exact Or.inl (Or.inl (List.mem_map.mpr ⟨c, List.mem_range.mpr hc, rfl⟩))

theorem mem_vkeys_onEdge {ν e k : ℕ} (he : e < 30) (hk : 1 ≤ k) (hk2 : k ≤ ν - 1) :
    VKey.onEdge e k ∈ vkeys ν := by
  unfold vkeys
  rw [List.mem_append, List.mem_append]
  refine Or.inl (Or.inr (List.mem_flatMap.mpr ⟨e, List.mem_range.mpr he,
    List.mem_map.mpr ⟨k - 1, List.mem_range.mpr (by omega), by congr 1 ; omega⟩⟩))

theorem mem_vkeys_inner {ν fi i j : ℕ} (hf : fi < 20) (hi : 1 ≤ i) (hj : 1 ≤ j)
    (hij : i + j ≤ ν - 1) : VKey.inner fi i j ∈ vkeys ν := by
  unfold vkeys
  rw [List.mem_append, List.mem_append]
  refine Or.inr (List.mem_flatMap.mpr ⟨fi, List.mem_range.mpr hf,
    List.mem_map.mpr ⟨(i - 1, j - 1), mem_ijLt.mpr (by simp ; omega), ?_⟩⟩)
  simp only
  congr 1 <;> omega

/-! ## Well-formedness of the icosahedron tables -/

/-- Well-formedness of the edge-table entry for the unordered pair {u, v}. -/
abbrev edgeOK (u v : ℕ) : Prop :=
  edgeIndex u v < 30 ∧ icoEdges.getD (edgeIndex u v) (0, 0) = (min u v, max u v)

/-- Bundled well-formedness of one base face: corner indices in range and
pairwise distinct, each side present in the edge table, and the three side
edge indices pairwise distinct. -/
abbrev faceOK (fi : ℕ) : Prop :=
  (faceAt fi).1 < 12 ∧ (faceAt fi).2.1 < 12 ∧ (faceAt fi).2.2 < 12 ∧
  (faceAt fi).1 ≠ (faceAt fi).2.1 ∧ (faceAt fi).1 ≠ (faceAt fi).2.2 ∧
  (faceAt fi).2.1 ≠ (faceAt fi).2.2 ∧
  edgeOK (faceAt fi).1 (faceAt fi).2.1 ∧ edgeOK (faceAt fi).1 (faceAt fi).2.2 ∧
  edgeOK (faceAt fi).2.1 (faceAt fi).2.2 ∧
  edgeIndex (faceAt fi).1 (faceAt fi).2.1 ≠ edgeIndex (faceAt fi).1 (faceAt fi).2.2 ∧
  edgeIndex (faceAt fi).1 (faceAt fi).2.1 ≠ edgeIndex (faceAt fi).2.1 (faceAt fi).2.2 ∧
  edgeIndex (faceAt fi).1 (faceAt fi).2.2 ≠ edgeIndex (faceAt fi).2.1 (faceAt fi).2.2

theorem faceOK_all : ∀ fi, fi < 20 → faceOK fi := by decide

/-- Every edge-table entry is sorted, with endpoints among the 12 base
vertices. -/
theorem icoEdges_sorted : ∀ e, e < 30 →
    (icoEdges.getD e (0, 0)).1 < (icoEdges.getD e (0, 0)).2 ∧
    (icoEdges.getD e (0, 0)).2 < 12 := by decide

/-- Looking an edge-table entry back up by its endpoints recovers its
index. -/
theorem edgeIndex_getD : ∀ e, e < 30 →
    edgeIndex (icoEdges.getD e (0, 0)).1 (icoEdges.getD e (0, 0)).2 = e := by decide

/-! ## Case analysis of the canonical key function -/

theorem edgeKey_cases (ν u v k : ℕ) :
    (u < v ∧ edgeKey ν u v k = VKey.onEdge (edgeIndex u v) k) ∨
    (¬ u < v ∧ edgeKey ν u v k = VKey.onEdge (edgeIndex u v) (ν - k)) := by
  unfold edgeKey
  split_ifs with h
  · exact Or.inl ⟨h, rfl⟩
  · exact Or.inr ⟨h, rfl⟩

theorem kf_cases {ν fi i j : ℕ} (hν : 1 ≤ ν) (hij : i + j ≤ ν) :
    (i = 0 ∧ j = 0 ∧ kf ν fi i j = VKey.corner (faceAt fi).1) ∨
    (i = ν ∧ j = 0 ∧ kf ν fi i j = VKey.corner (faceAt fi).2.1) ∨
    (i = 0 ∧ j = ν ∧ kf ν fi i j = VKey.corner (faceAt fi).2.2) ∨
    (0 < i ∧ i < ν ∧ j = 0 ∧
      kf ν fi i j = edgeKey ν (faceAt fi).1 (faceAt fi).2.1 i) ∨
    (0 < j ∧ j < ν ∧ i = 0 ∧
      kf ν fi i j = edgeKey ν (faceAt fi).1 (faceAt fi).2.2 j) ∨
    (0 < i ∧ 0 < j ∧ i + j = ν ∧
      kf ν fi i j = edgeKey ν (faceAt fi).2.1 (faceAt fi).2.2 j) ∨
    (0 < i ∧ 0 < j ∧ i + j < ν ∧ kf ν fi i j = VKey.inner fi i j) := by
  unfold kf
  split_ifs with h1 h2 h3 h4 h5 h6
  · exact Or.inl ⟨h1.1, h1.2, rfl⟩
  · exact Or.inr (Or.inl ⟨h2.1, h2.2, rfl⟩)
  · exact Or.inr (Or.inr (Or.inl ⟨h3.1, h3.2, rfl⟩))
  · refine Or.inr (Or.inr (Or.inr (Or.inl ⟨?_, ?_, h4, rfl⟩))) <;> omega
  · refine Or.inr (Or.inr (Or.inr (Or.inr (Or.inl ⟨?_, ?_, h5, rfl⟩)))) <;> omega
  · refine Or.inr (Or.inr (Or.inr (Or.inr (Or.inr (Or.inl ⟨?_, ?_, h6, rfl⟩))))) <;> omega
  · refine Or.inr (Or.inr (Or.inr (Or.inr (Or.inr (Or.inr ⟨?_, ?_, ?_, rfl⟩))))) <;> omega

/-- The canonical key of a valid lattice point is among the enumerated
vertex keys. -/
theorem kf_mem {ν fi i j : ℕ} (hν : 1 ≤ ν) (hf : fi < 20) (hij : i + j ≤ ν) :
    kf ν fi i j ∈ vkeys ν := by
  obtain ⟨ha12, hb12, hc12, hab, hac, hbc, hEab, hEac, hEbc, hd1, hd2, hd3⟩ :=
    faceOK_all fi hf
  rcases @kf_cases ν fi _ _ hν hij with
    ⟨_, _, hk⟩ | ⟨_, _, hk⟩ | ⟨_, _, hk⟩ | ⟨hi0, hiν, _, hk⟩ | ⟨hj0, hjν, _, hk⟩ |
    ⟨hi0, hj0, hs, hk⟩ | ⟨hi0, hj0, hs, hk⟩
  · rw [hk] ; exact mem_vkeys_corner ha12
  · rw [hk] ; exact mem_vkeys_corner hb12
  · rw [hk] ; exact mem_vkeys_corner hc12
  · rw [hk]
    rcases edgeKey_cases ν (faceAt fi).1 (faceAt fi).2.1 i with ⟨_, h⟩ | ⟨_, h⟩ <;>
      rw [h] <;> exact mem_vkeys_onEdge hEab.1 (by omega) (by omega)
  · rw [hk]
    rcases edgeKey_cases ν (faceAt fi).1 (faceAt fi).2.2 j with ⟨_, h⟩ | ⟨_, h⟩ <;>
      rw [h] <;> exact mem_vkeys_onEdge hEac.1 (by omega) (by omega)
  · rw [hk]
    rcases edgeKey_cases ν (faceAt fi).2.1 (faceAt fi).2.2 j with ⟨_, h⟩ | ⟨_, h⟩ <;>
      rw [h] <;> exact mem_vkeys_onEdge hEbc.1 (by omega) (by omega)
  · rw [hk] ; exact mem_vkeys_inner hf hi0 hj0 (by omega)

set_option maxHeartbeats 2000000 in
/-- Within one face, the canonical key function is injective on valid
lattice points. -/
theorem kf_inj_face {ν fi i j i2 j2 : ℕ} (hν : 1 ≤ ν) (hf : fi < 20)
    (h1 : i + j ≤ ν) (h2 : i2 + j2 ≤ ν)
    (he : kf ν fi i j = kf ν fi i2 j2) : i = i2 ∧ j = j2 := by
  obtain ⟨ha12, hb12, hc12, hab, hac, hbc, hEab, hEac, hEbc, hd1, hd2, hd3⟩ :=
    faceOK_all fi hf
  unfold kf edgeKey at he
  split_ifs at he <;>
    simp only [VKey.corner.injEq, VKey.onEdge.injEq, VKey.inner.injEq] at he <;>
    omega

/-! ## Claim C1: vertex and face counts -/

/-- Claim C1: for every ν ≥ 1, icosphere(ν) has exactly 12 + 10·(ν+1)·(ν−1)
vertices and 20·ν² faces; in particular ν = 2 yields 42 vertices and 80
faces, and ν = 32 yields 10242 vertices and 20480 faces. -/
theorem C1_mesh_counts :
    (∀ ν : ℕ, 1 ≤ ν →
      (icosphere ν).vertices.length = 12 + 10 * ((ν + 1) * (ν - 1)) ∧
      (icosphere ν).faces.length = 20 * ν ^ 2) ∧
    ((icosphere 2).vertices.length = 42 ∧ (icosphere 2).faces.length = 80) ∧
    ((icosphere 32).vertices.length = 10242 ∧ (icosphere 32).faces.length = 20480) := by
  have main : ∀ ν : ℕ, 1 ≤ ν →
      (icosphere ν).vertices.length = 12 + 10 * ((ν + 1) * (ν - 1)) ∧
      (icosphere ν).faces.length = 20 * ν ^ 2 := by
    intro ν hν
    obtain ⟨n, rfl⟩ : ∃ n, ν = n + 1 := ⟨ν - 1, by omega⟩
    constructor
    · show ((vkeys (n + 1)).map _).length = _
      rw [List.length_map, length_vkeys]
      rcases n with _ | m
      · have hz : (ijLt (0 + 1 - 2)).length = 0 := rfl
        omega
      · have h2 := length_ijLt_twice m
        have e0 : (m + 1 + 1) - 2 = m := by omega
        rw [e0]
        have e2 : (m + 1 + 1 + 1) * (m + 1 + 1 - 1) = m * (m + 1) + 3 * (m + 1) := by
          have e1 : (m + 1 + 1) - 1 = m + 1 := by omega
          rw [e1] ; ring
        omega
    · show (meshFaces (n + 1)).length = _
      rw [length_meshFaces]
      have h2 := length_ijLt_twice (n + 1)
      have h3 := length_ijLt_twice n
      have e1 : (n + 1) - 1 = n := by omega
      rw [e1]
      have e3 : (n + 1) * (n + 1 + 1) + n * (n + 1) = 2 * ((n + 1) * (n + 1)) := by ring
      have e4 : (n + 1) ^ 2 = (n + 1) * (n + 1) := by ring
      omega
  refine ⟨main, ⟨?_, ?_⟩, ?_, ?_⟩
  · rw [(main 2 (by norm_num)).1]
  · rw [(main 2 (by norm_num)).2] ; norm_num
  · rw [(main 32 (by norm_num)).1]
  · rw [(main 32 (by norm_num)).2] ; norm_num

theorem C1_mesh_counts_witness :
    (1 : ℕ) ≤ 3 ∧ (icosphere 3).vertices.length = 92 ∧
      (icosphere 3).faces.length = 180 := by
  have h := C1_mesh_counts.1 3 (by norm_num)
  exact ⟨by norm_num, by rw [h.1], by rw [h.2] ; norm_num⟩

/-! ## Claim C5: invalid arguments -/

/-- Claim C5: a frequency that is not a positive integer (ν ≤ 0 or
non-integral) yields the InvalidArgument error carrying the offending value,
and no partial result is ever produced — every call returns either that
error or the complete mesh of a positive integer frequency. -/
theorem C5_invalid_argument :
    (∀ q : ℚ, q ≤ 0 ∨ q.den ≠ 1 →
      icosphereChecked q = Except.error (IcoError.invalidArgument q)) ∧
    (∀ q : ℚ, icosphereChecked q = Except.error (IcoError.invalidArgument q) ∨
      ∃ ν : ℕ, 1 ≤ ν ∧ (ν : ℚ) = q ∧ icosphereChecked q = Except.ok (icosphere ν)) := by
  constructor
  · intro q hq
    unfold icosphereChecked
    rw [if_neg]
    rintro ⟨hden, hle⟩
    rcases hq with hq | hq
    · linarith
    · exact hq hden
  · intro q
    by_cases h : q.den = 1 ∧ 1 ≤ q
    · right
      have h2 : (q.num : ℚ) = q := by
        have h0 := Rat.num_div_den q
        rw [h.1] at h0
        simpa using h0
      have h3 : (1 : ℤ) ≤ q.num := by
        have : (1 : ℚ) ≤ (q.num : ℚ) := by rw [h2] ; exact h.2
        exact_mod_cast this
      refine ⟨q.num.toNat, by omega, ?_, ?_⟩
      · rw [← h2]
        have : ((q.num.toNat : ℤ) : ℚ) = (q.num : ℚ) := by
          congr 1
          omega
        exact_mod_cast this
      · unfold icosphereChecked
        rw [if_pos h]
    · left
      unfold icosphereChecked
      rw [if_neg h]

theorem C5_invalid_argument_witness :
    icosphereChecked 0 = Except.error (IcoError.invalidArgument 0) ∧
    icosphereChecked (-3) = Except.error (IcoError.invalidArgument (-3)) ∧
    icosphereChecked (5 / 2) = Except.error (IcoError.invalidArgument (5 / 2)) := by
  have hden : ((5 : ℚ) / 2).den ≠ 1 := by
    intro h
    have h2 : ((((5 : ℚ) / 2).num : ℚ)) = (5 : ℚ) / 2 := by
      have h0 := Rat.num_div_den ((5 : ℚ) / 2)
      rw [h] at h0
      simpa using h0
    have h3 : (2 : ℚ) * ((((5 : ℚ) / 2).num : ℚ)) = 5 := by rw [h2] ; ring
    have h4 : (2 : ℤ) * ((5 : ℚ) / 2).num = 5 := by exact_mod_cast h3
    omega
  exact ⟨C5_invalid_argument.1 0 (Or.inl (by norm_num)),
   C5_invalid_argument.1 (-3) (Or.inl (by norm_num)),
   C5_invalid_argument.1 (5 / 2) (Or.inr hden)⟩

/-! ## Claim C6: purity and determinism -/

/-- Claim C6: the pipeline is a pure deterministic function of ν — two
invocations with equal argument produce identical output, with no state
surviving across invocations (in this embedding the pipeline is literally a
function, so output depends on nothing but the argument). -/
theorem C6_pure_deterministic :
    (∀ n1 n2 : ℕ, n1 = n2 → icosphere n1 = icosphere n2) ∧
    (∀ q1 q2 : ℚ, q1 = q2 → icosphereChecked q1 = icosphereChecked q2) :=
  ⟨fun _ _ h => congrArg _ h, fun _ _ h => congrArg _ h⟩

theorem C6_pure_deterministic_witness :
    icosphere 2 = icosphere 2 ∧ icosphereChecked 5 = icosphereChecked 5 :=
  ⟨C6_pure_deterministic.1 2 2 rfl, C6_pure_deterministic.2 5 5 rfl⟩

/-! ## Claim C7: ν = 1 reproduces the base icosahedron -/

/-- Modelled from the spec: the IcosahedronBase output — the 12 canonical
vertices normalized to unit length and the 20 faces (spec §4.1). -/
noncomputable def icosahedronBase : Mesh :=
  { vertices := (List.range 12).map (fun c => normalizeV (embV (icoRaw c)))
    faces := icoFaces }

/-- Claim C7: icosphere(1) reproduces the base icosahedron exactly — 12
vertices and 20 faces matching the IcosahedronBase output (here under the
identity relabeling). -/
theorem C7_nu_one_is_base :
    (icosphere 1).vertices = icosahedronBase.vertices ∧
    (icosphere 1).faces = icosahedronBase.faces ∧
    (icosphere 1).vertices.length = 12 ∧ (icosphere 1).faces.length = 20 := by
  have hv : (icosphere 1).vertices = icosahedronBase.vertices := by
    show (vkeys 1).map (fun k => normalizeV (embV (keyPos 1 k)))
      = icosahedronBase.vertices
    have h1 : vkeys 1 = (List.range 12).map VKey.corner := by decide
    rw [h1, List.map_map]
    rfl
  have hf : (icosphere 1).faces = icosahedronBase.faces := by
    show meshFaces 1 = icoFaces
    decide
  refine ⟨hv, hf, ?_, ?_⟩
  · rw [hv] ; rfl
  · rw [hf] ; rfl

/-! ## Claim C10: faces are triples of distinct valid indices -/

theorem triple_wellformed {ν fi i1 j1 i2 j2 i3 j3 : ℕ} (hν : 1 ≤ ν) (hf : fi < 20)
    (v1 : i1 + j1 ≤ ν) (v2 : i2 + j2 ≤ ν) (v3 : i3 + j3 ≤ ν)
    (d12 : ¬(i1 = i2 ∧ j1 = j2)) (d13 : ¬(i1 = i3 ∧ j1 = j3))
    (d23 : ¬(i2 = i3 ∧ j2 = j3)) :
    idx ν (kf ν fi i1 j1) ≠ idx ν (kf ν fi i2 j2) ∧
    idx ν (kf ν fi i1 j1) ≠ idx ν (kf ν fi i3 j3) ∧
    idx ν (kf ν fi i2 j2) ≠ idx ν (kf ν fi i3 j3) ∧
    idx ν (kf ν fi i1 j1) < (vkeys ν).length ∧
    idx ν (kf ν fi i2 j2) < (vkeys ν).length ∧
    idx ν (kf ν fi i3 j3) < (vkeys ν).length := by
  have m1 := kf_mem hν hf v1
  have m2 := kf_mem hν hf v2
  have m3 := kf_mem hν hf v3
  refine ⟨?_, ?_, ?_, idx_lt_length m1, idx_lt_length m2, idx_lt_length m3⟩
  · intro h ; exact d12 (kf_inj_face hν hf v1 v2 (idx_inj m1 m2 h))
  · intro h ; exact d13 (kf_inj_face hν hf v1 v3 (idx_inj m1 m3 h))
  · intro h ; exact d23 (kf_inj_face hν hf v2 v3 (idx_inj m2 m3 h))

/-- Claim C10: in icosphere(ν) every face is a triple of pairwise distinct
indices, each a valid index into the vertex list. -/
theorem C10_faces_wellformed :
    ∀ ν : ℕ, 1 ≤ ν → ∀ t ∈ (icosphere ν).faces,
      t.1 ≠ t.2.1 ∧ t.1 ≠ t.2.2 ∧ t.2.1 ≠ t.2.2 ∧
      t.1 < (icosphere ν).vertices.length ∧
      t.2.1 < (icosphere ν).vertices.length ∧
      t.2.2 < (icosphere ν).vertices.length := by
  intro ν hν t ht
  have hlen : (icosphere ν).vertices.length = (vkeys ν).length :=
    List.length_map _ _
  rw [hlen]
  have ht2 : t ∈ meshFaces ν := ht
  unfold meshFaces at ht2
  rw [List.mem_map] at ht2
  obtain ⟨kt, hkt, rfl⟩ := ht2
  unfold keyFaces at hkt
  rw [List.mem_flatMap] at hkt
  obtain ⟨fi, hfi, hkt⟩ := hkt
  rw [List.mem_range] at hfi
  unfold keyFacesOf at hkt
  rw [List.mem_append] at hkt
  rcases hkt with hkt | hkt <;> rw [List.mem_map] at hkt <;>
    obtain ⟨p, hp, rfl⟩ := hkt <;> rw [mem_ijLt] at hp
  · have h := @triple_wellformed ν fi p.1 p.2 (p.1 + 1) p.2 p.1 (p.2 + 1)
      hν hfi (by omega) (by omega) (by omega)
      (by omega) (by omega) (by omega)
    exact ⟨h.1, h.2.1, h.2.2.1, h.2.2.2.1, h.2.2.2.2.1, h.2.2.2.2.2⟩
  · have h := @triple_wellformed ν fi (p.1 + 1) p.2 (p.1 + 1) (p.2 + 1) p.1 (p.2 + 1)
      hν hfi (by omega) (by omega)
      (by omega) (by omega) (by omega) (by omega)
    exact ⟨h.1, h.2.1, h.2.2.1, h.2.2.2.1, h.2.2.2.2.1, h.2.2.2.2.2⟩

theorem C10_faces_wellformed_witness :
    (1 : ℕ) ≤ 2 ∧ ((0, 12, 14) ∈ (icosphere 2).faces ∧
      ((0 : ℕ) ≠ 12 ∧ (0 : ℕ) ≠ 14 ∧ (12 : ℕ) ≠ 14)) := by
  have hm : ((0, 12, 14) : ℕ × ℕ × ℕ) ∈ (icosphere 2).faces := by
    show _ ∈ meshFaces 2
    decide
  have h := C10_faces_wellformed 2 (by norm_num) (0, 12, 14) hm
  exact ⟨by norm_num, hm, h.1, h.2.1, h.2.2.1⟩

/-! ## Claim C8: the lattice sampler -/

/-- Modelled from the spec: the LatticeSampler output for one base face —
the finite sequence of (i, j, position) triples over all i, j ≥ 0 with
i + j ≤ ν (spec §4.2). -/
def sampler (ν fi : ℕ) : List (ℕ × ℕ × Vec3 Q5) :=
  (latticePts ν).map (fun p => (p.1, p.2, latticePos ν fi p.1 p.2))

theorem C8_counterexample :
    (keyFacesOf 1 0).length = 1 ^ 2 ∧ (keyFacesOf 1 0).length ≠ 1 * (1 + 1) := by
  constructor
  · decide
  · decide

/-- Claim C8 (amended): for every base face and every ν ≥ 1 the sampler
produces exactly the (ν+1)(ν+2)/2 triples (i, j, position) over all pairs
with i + j ≤ ν, with position = A + (B−A)·(i/ν) + (C−A)·(j/ν), each exactly
once; the face is partitioned into ν² sub-triangles, namely ν(ν+1)/2 "up"
triangles and ν(ν−1)/2 "down" triangles (the frozen claim's parenthetical
total "ν·(ν+1) up and down triangles combined" is arithmetically
incompatible with the ν² it asserts; the true split is ν(ν+1)/2 up and
ν(ν−1)/2 down). -/
theorem C8_lattice_sampler :
    ∀ ν fi : ℕ, 1 ≤ ν → fi < 20 →
      (2 * (sampler ν fi).length = (ν + 1) * (ν + 2) ∧
       (sampler ν fi).length = (ν + 1) * (ν + 2) / 2) ∧
      (∀ i j : ℕ, ∀ pos : Vec3 Q5, ((i, j, pos) ∈ sampler ν fi ↔
        (i + j ≤ ν ∧ pos = icoRaw (faceAt fi).1
          + ofs i ν • (icoRaw (faceAt fi).2.1 - icoRaw (faceAt fi).1)
          + ofs j ν • (icoRaw (faceAt fi).2.2 - icoRaw (faceAt fi).1)))) ∧
      (sampler ν fi).Nodup ∧
      (2 * (ijLt ν).length = ν * (ν + 1) ∧
       2 * (ijLt (ν - 1)).length = (ν - 1) * ν ∧
       (keyFacesOf ν fi).length = ν ^ 2) := by
  intro ν fi hν _
  obtain ⟨n, rfl⟩ : ∃ n, ν = n + 1 := ⟨ν - 1, by omega⟩
  refine ⟨⟨?_, ?_⟩, ?_, ?_, ?_, ?_, ?_⟩
  · show 2 * ((ijLt (n + 1 + 1)).map _).length = _
    rw [List.length_map]
    have h := length_ijLt_twice (n + 1 + 1)
    have e : (n + 1 + 1) * (n + 1 + 1 + 1) = (n + 1 + 1) * (n + 1 + 2) := by ring
    omega
  · show ((ijLt (n + 1 + 1)).map _).length = _
    rw [List.length_map]
    have h := length_ijLt_twice (n + 1 + 1)
    have e : (n + 1 + 1) * (n + 1 + 1 + 1) = (n + 1 + 1) * (n + 1 + 2) := by ring
    omega
  · intro i j pos
    unfold sampler latticePts
    rw [List.mem_map]
    constructor
    · rintro ⟨p, hp, heq⟩
      rw [mem_ijLt] at hp
      have h1 : p.1 = i ∧ p.2 = j ∧ latticePos (n + 1) fi p.1 p.2 = pos := by
        simpa [Prod.ext_iff] using heq
      obtain ⟨e1, e2, e3⟩ := h1
      refine ⟨by omega, ?_⟩
      rw [← e3, e1, e2]
      rfl
    · rintro ⟨hij, rfl⟩
      exact ⟨(i, j), mem_ijLt.mpr (by omega), rfl⟩
  · unfold sampler
    refine (nodup_ijLt _).map ?_
    intro p q h
    simp only [Prod.mk.injEq] at h
    exact Prod.ext h.1 h.2.1
  · exact length_ijLt_twice (n + 1)
  · have h := length_ijLt_twice (n + 1 - 1)
    simpa using h
  · rw [length_keyFacesOf]
    simp only [Nat.add_sub_cancel]
    have h1 := length_ijLt_twice (n + 1)
    have h2 := length_ijLt_twice n
    have e1 : (n + 1) * (n + 1 + 1) + n * (n + 1) = 2 * ((n + 1) * (n + 1)) := by ring
    have e2 : (n + 1) ^ 2 = (n + 1) * (n + 1) := by ring
    omega

theorem C8_lattice_sampler_witness :
    (sampler 2 0).length = 6 ∧ (keyFacesOf 2 0).length = 4 := by
  have h := C8_lattice_sampler 2 0 (by norm_num) (by norm_num)
  constructor
  · have h1 := h.1.1
    omega
  · have h2 := h.2.2.2.2.2
    rw [h2]
    norm_num

/-! ## The real embedding of ℚ(√5) -/

theorem emb_add (x y : Q5) : emb (x + y) = emb x + emb y := by
  simp [emb] ; push_cast ; ring

theorem emb_mul (x y : Q5) : emb (x * y) = emb x * emb y := by
  have h5 : Real.sqrt 5 * Real.sqrt 5 = 5 := Real.mul_self_sqrt (by norm_num)
  simp only [emb, mul_a, mul_b]
  push_cast
  linear_combination (-((x.b : ℝ) * (y.b : ℝ))) * h5

theorem emb_zero : emb 0 = 0 := by simp [emb]

theorem embV_dot (u v : Vec3 Q5) : dot (embV u) (embV v) = emb (dot u v) := by
  simp only [dot, embV, emb_add, emb_mul]

theorem emb_three_one_pos : 0 < emb ⟨3, 1⟩ := by
  have h := Real.sqrt_nonneg 5
  simp only [emb]
  push_cast
  linarith

theorem emb_half_five_pos : 0 < emb ⟨5/2, 1/2⟩ := by
  have h := Real.sqrt_nonneg 5
  simp only [emb]
  push_cast
  linarith

/-! ## Unit-norm property of the sphere projection -/

theorem dot_self_pos {v : Vec3 ℝ} (hv : v ≠ 0) : 0 < dot v v := by
  have hne : ¬(v.x = 0 ∧ v.y = 0 ∧ v.z = 0) := by
    intro h
    exact hv (Vec3.ext h.1 h.2.1 h.2.2)
  have hx := mul_self_nonneg v.x
  have hy := mul_self_nonneg v.y
  have hz := mul_self_nonneg v.z
  rcases not_and_or.mp hne with h | h
  · have := mul_self_pos.mpr h
    simp only [dot]
    nlinarith
  rcases not_and_or.mp h with h | h
  · have := mul_self_pos.mpr h
    simp only [dot]
    nlinarith
  · have := mul_self_pos.mpr h
    simp only [dot]
    nlinarith

theorem vnorm_normalizeV {v : Vec3 ℝ} (hv : v ≠ 0) : vnorm (normalizeV v) = 1 := by
  have hpos : 0 < dot v v := dot_self_pos hv
  have hnpos : 0 < vnorm v := Real.sqrt_pos.mpr hpos
  have hsq : vnorm v * vnorm v = dot v v := Real.mul_self_sqrt (le_of_lt hpos)
  show Real.sqrt (dot ((vnorm v)⁻¹ • v) ((vnorm v)⁻¹ • v)) = 1
  have hd : dot ((vnorm v)⁻¹ • v) ((vnorm v)⁻¹ • v)
      = dot v v / (vnorm v * vnorm v) := by
    simp only [dot, smul_x, smul_y, smul_z]
    field_simp
    try ring
  rw [hd, hsq, div_self (ne_of_gt hpos), Real.sqrt_one]

/-! ## Nonvanishing of the pre-projection positions -/

/-- Every base vertex has squared norm 1 + φ² = 5/2 + √5/2. -/
theorem icoRaw_sq_norm : ∀ c, c < 12 → dot (icoRaw c) (icoRaw c) = ⟨5/2, 1/2⟩ := by
  intro c hc
  interval_cases c <;>
    · simp only [icoRaw, dot, phi]
      rw [Q5.ext_iff]
      norm_num

/-- For every table edge {u, v}: both endpoints have the same inner product
3 + √5 with the direction u + v (the edge's midpoint direction). -/
theorem icoEdges_dot : ∀ p ∈ icoEdges,
    dot (icoRaw p.1) (icoRaw p.1 + icoRaw p.2) = ⟨3, 1⟩ ∧
    dot (icoRaw p.2) (icoRaw p.1 + icoRaw p.2) = ⟨3, 1⟩ := by
  intro p hp
  fin_cases hp <;>
    · constructor <;>
        · simp only [icoRaw, dot, phi]
          rw [Q5.ext_iff]
          norm_num

/-- For every face, the inner product of its first corner with its outward
normal is 3 + √5. -/
theorem icoFaces_dot_normal : ∀ t ∈ icoFaces,
    dot (icoRaw t.1) (cross (icoRaw t.2.1 - icoRaw t.1) (icoRaw t.2.2 - icoRaw t.1))
      = ⟨3, 1⟩ := by
  intro t ht
  fin_cases ht <;>
    · simp only [icoRaw, dot, cross, phi]
      rw [Q5.ext_iff]
      norm_num

/-- Affine points of the plane of a triangle have a fixed inner product with
the triangle's normal direction. -/
theorem dot_affine_cross {α : Type} [CommRing α] (A u v : Vec3 α) (s t : α) :
    dot (A + s • u + t • v) (cross u v) = dot A (cross u v) := by
  simp [dot, cross] ; ring

/-- Inner products along a parameterized segment interpolate linearly. -/
theorem dot_lerp (U V w : Vec3 Q5) (s : Q5) :
    dot (U + s • (V - U)) w = dot U w + s * (dot V w - dot U w) := by
  simp [dot] ; ring

theorem mem_vkeys_elim {ν : ℕ} {k : VKey} (h : k ∈ vkeys ν) :
    (∃ c, c < 12 ∧ k = VKey.corner c) ∨
    (∃ e o, e < 30 ∧ 1 ≤ o ∧ o ≤ ν - 1 ∧ k = VKey.onEdge e o) ∨
    (∃ fi i j, fi < 20 ∧ 1 ≤ i ∧ 1 ≤ j ∧ i + j ≤ ν - 1 ∧ k = VKey.inner fi i j) := by
  unfold vkeys at h
  rw [List.mem_append, List.mem_append] at h
  rcases h with (h | h) | h
  · rw [List.mem_map] at h
    obtain ⟨c, hc, rfl⟩ := h
    exact Or.inl ⟨c, List.mem_range.mp hc, rfl⟩
  · rw [List.mem_flatMap] at h
    obtain ⟨e, he, h⟩ := h
    rw [List.mem_map] at h
    obtain ⟨o, ho, rfl⟩ := h
    rw [List.mem_range] at he ho
    exact Or.inr (Or.inl ⟨e, o + 1, he, by omega, by omega, rfl⟩)
  · rw [List.mem_flatMap] at h
    obtain ⟨fi, hfi, h⟩ := h
    rw [List.mem_map] at h
    obtain ⟨p, hp, rfl⟩ := h
    rw [List.mem_range] at hfi
    rw [mem_ijLt] at hp
    exact Or.inr (Or.inr ⟨fi, p.1 + 1, p.2 + 1, hfi, by omega, by omega, by omega, rfl⟩)

/-- The pre-projection position of every enumerated vertex key is a nonzero
real vector. -/
theorem keyPos_ne_zero {ν : ℕ} {k : VKey} (hk : k ∈ vkeys ν) :
    embV (keyPos ν k) ≠ 0 := by
  have main : ∃ w : Vec3 Q5, 0 < emb (dot (keyPos ν k) w) := by
    rcases mem_vkeys_elim hk with ⟨c, hc, rfl⟩ | ⟨e, o, he, ho1, ho2, rfl⟩ |
      ⟨fi, i, j, hfi, hi, hj, hij, rfl⟩
    · refine ⟨icoRaw c, ?_⟩
      show 0 < emb (dot (icoRaw c) (icoRaw c))
      rw [icoRaw_sq_norm c hc]
      exact emb_half_five_pos
    · refine ⟨icoRaw (icoEdges.getD e (0, 0)).1 + icoRaw (icoEdges.getD e (0, 0)).2, ?_⟩
      have hmem : icoEdges.getD e (0, 0) ∈ icoEdges := by
        rw [List.getD_eq_getElem icoEdges (0, 0) (by exact he)]
        exact List.getElem_mem _
      have hdd := icoEdges_dot _ hmem
      show 0 < emb (dot (icoRaw (icoEdges.getD e (0, 0)).1
        + ofs o ν • (icoRaw (icoEdges.getD e (0, 0)).2 - icoRaw (icoEdges.getD e (0, 0)).1)) _)
      rw [dot_lerp, hdd.1, hdd.2]
      have hz : (⟨3, 1⟩ : Q5) + ofs o ν * ((⟨3, 1⟩ : Q5) - ⟨3, 1⟩) = ⟨3, 1⟩ := by ring
      rw [hz]
      exact emb_three_one_pos
    · refine ⟨faceNormal fi, ?_⟩
      show 0 < emb (dot (latticePos ν fi i j) (faceNormal fi))
      unfold latticePos faceNormal
      rw [dot_affine_cross]
      have hmem : faceAt fi ∈ icoFaces := by
        show icoFaces.getD fi (0, 0, 0) ∈ icoFaces
        rw [List.getD_eq_getElem icoFaces (0, 0, 0) (by exact hfi)]
        exact List.getElem_mem _
      rw [icoFaces_dot_normal _ hmem]
      exact emb_three_one_pos
  obtain ⟨w, hw⟩ := main
  intro h0
  rw [← embV_dot] at hw
  rw [h0] at hw
  rw [dot_zero_left] at hw
  exact lt_irrefl 0 hw

/-! ## Claim C3: all vertices lie on the unit sphere -/

/-- Claim C3: every vertex of icosphere(ν) has Euclidean norm exactly 1 (so
in particular within any epsilon such as 1e-9): the vertex list is the
deduplicated key list mapped through v ↦ v/‖v‖ once per unique vertex, and
every pre-projection position is nonzero by construction. -/
theorem C3_unit_sphere :
    ∀ ν : ℕ, 1 ≤ ν →
      ((icosphere ν).vertices
          = (vkeys ν).map (fun k => normalizeV (embV (keyPos ν k)))) ∧
      ∀ v ∈ (icosphere ν).vertices, vnorm v = 1 := by
  intro ν hν
  refine ⟨rfl, ?_⟩
  intro v hv
  obtain ⟨k, hk, rfl⟩ := List.mem_map.mp hv
  exact vnorm_normalizeV (keyPos_ne_zero hk)

theorem C3_unit_sphere_witness :
    vnorm (normalizeV (embV (keyPos 1 (VKey.corner 0)))) = 1 := by
  have hm : VKey.corner 0 ∈ vkeys 1 := by decide
  exact (C3_unit_sphere 1 (by norm_num)).2 _ (List.mem_map_of_mem _ hm)



/-! ## Coherence: the canonical key's position is the lattice position -/

/-- On the BC side of the lattice (i + j = ν) the lattice position depends
only on the two side endpoints. -/
theorem latticeBC (A B C : Vec3 Q5) (i j ν : ℕ) (hν : ((ν : ℚ)) ≠ 0)
    (hs : (i : ℚ) + (j : ℚ) = (ν : ℚ)) :
    A + ofs i ν • (B - A) + ofs j ν • (C - A) = B + ofs j ν • (C - B) := by
  have hi : (i : ℚ) = (ν : ℚ) - (j : ℚ) := by linarith
  ext <;> simp [ofs] <;> rw [hi] <;> field_simp <;> ring

/-- Interpolating from the other end of a segment with the complementary
offset lands on the same point. -/
theorem lerpFlip (U V : Vec3 Q5) (j ν : ℕ) (hν : ((ν : ℚ)) ≠ 0) (hj : j ≤ ν) :
    V + ofs (ν - j) ν • (U - V) = U + ofs j ν • (V - U) := by
  have hc : ((ν - j : ℕ) : ℚ) = (ν : ℚ) - (j : ℚ) := Nat.cast_sub hj
  ext <;> simp [ofs, hc] <;> field_simp <;> ring

theorem keyPos_kf {ν fi i j : ℕ} (hν : 1 ≤ ν) (hf : fi < 20) (hij : i + j ≤ ν) :
    keyPos ν (kf ν fi i j) = latticePos ν fi i j := by
  obtain ⟨ha12, hb12, hc12, hab, hac, hbc, hEab, hEac, hEbc, hd1, hd2, hd3⟩ :=
    faceOK_all fi hf
  have hν0 : ((ν : ℚ)) ≠ 0 := Nat.cast_ne_zero.mpr (by omega)
  rcases @kf_cases ν fi _ _ hν hij with
    ⟨hi, hj, hk⟩ | ⟨hi, hj, hk⟩ | ⟨hi, hj, hk⟩ | ⟨hi0, hiν, hj, hk⟩ |
    ⟨hj0, hjν, hi, hk⟩ | ⟨hi0, hj0, hs, hk⟩ | ⟨hi0, hj0, hs, hk⟩
  · subst hi ; subst hj ; rw [hk]
    ext <;> simp [keyPos, latticePos, ofs]
  · subst hi ; subst hj ; rw [hk]
    ext <;> simp [keyPos, latticePos, ofs, div_self hν0] <;> ring
  · subst hi ; subst hj ; rw [hk]
    ext <;> simp [keyPos, latticePos, ofs, div_self hν0] <;> ring
  · subst hj ; rw [hk]
    rcases edgeKey_cases ν (faceAt fi).1 (faceAt fi).2.1 i with ⟨hlt, hek⟩ | ⟨hlt, hek⟩ <;>
      rw [hek]
    · have hg : icoEdges.getD (edgeIndex (faceAt fi).1 (faceAt fi).2.1) (0, 0)
          = ((faceAt fi).1, (faceAt fi).2.1) := by
        rw [hEab.2, min_eq_left (le_of_lt hlt), max_eq_right (le_of_lt hlt)]
      simp only [keyPos]
      rw [hg]
      ext <;> simp [latticePos, ofs] <;> ring
    · have hba : (faceAt fi).2.1 < (faceAt fi).1 := by omega
      have hg : icoEdges.getD (edgeIndex (faceAt fi).1 (faceAt fi).2.1) (0, 0)
          = ((faceAt fi).2.1, (faceAt fi).1) := by
        rw [hEab.2, min_eq_right (le_of_lt hba), max_eq_left (le_of_lt hba)]
      simp only [keyPos]
      rw [hg]
      have hflip := lerpFlip (icoRaw (faceAt fi).1) (icoRaw (faceAt fi).2.1) i ν hν0
        (by omega)
      refine hflip.trans ?_
      ext <;> simp [latticePos, ofs] <;> ring
  · subst hi ; rw [hk]
    rcases edgeKey_cases ν (faceAt fi).1 (faceAt fi).2.2 j with ⟨hlt, hek⟩ | ⟨hlt, hek⟩ <;>
      rw [hek]
    · have hg : icoEdges.getD (edgeIndex (faceAt fi).1 (faceAt fi).2.2) (0, 0)
          = ((faceAt fi).1, (faceAt fi).2.2) := by
        rw [hEac.2, min_eq_left (le_of_lt hlt), max_eq_right (le_of_lt hlt)]
      simp only [keyPos]
      rw [hg]
      ext <;> simp [latticePos, ofs] <;> ring
    · have hba : (faceAt fi).2.2 < (faceAt fi).1 := by omega
      have hg : icoEdges.getD (edgeIndex (faceAt fi).1 (faceAt fi).2.2) (0, 0)
          = ((faceAt fi).2.2, (faceAt fi).1) := by
        rw [hEac.2, min_eq_right (le_of_lt hba), max_eq_left (le_of_lt hba)]
      simp only [keyPos]
      rw [hg]
      have hflip := lerpFlip (icoRaw (faceAt fi).1) (icoRaw (faceAt fi).2.2) j ν hν0
        (by omega)
      refine hflip.trans ?_
      ext <;> simp [latticePos, ofs] <;> ring
  · rw [hk]
    have hsq : (i : ℚ) + (j : ℚ) = (ν : ℚ) := by exact_mod_cast hs
    have hBC : latticePos ν fi i j = icoRaw (faceAt fi).2.1
        + ofs j ν • (icoRaw (faceAt fi).2.2 - icoRaw (faceAt fi).2.1) := by
      unfold latticePos
      exact latticeBC _ _ _ _ _ _ hν0 hsq
    rw [hBC]
    rcases edgeKey_cases ν (faceAt fi).2.1 (faceAt fi).2.2 j with ⟨hlt, hek⟩ | ⟨hlt, hek⟩ <;>
      rw [hek]
    · have hg : icoEdges.getD (edgeIndex (faceAt fi).2.1 (faceAt fi).2.2) (0, 0)
          = ((faceAt fi).2.1, (faceAt fi).2.2) := by
        rw [hEbc.2, min_eq_left (le_of_lt hlt), max_eq_right (le_of_lt hlt)]
      simp only [keyPos]
      rw [hg]
    · have hba : (faceAt fi).2.2 < (faceAt fi).2.1 := by omega
      have hg : icoEdges.getD (edgeIndex (faceAt fi).2.1 (faceAt fi).2.2) (0, 0)
          = ((faceAt fi).2.2, (faceAt fi).2.1) := by
        rw [hEbc.2, min_eq_right (le_of_lt hba), max_eq_left (le_of_lt hba)]
      simp only [keyPos]
      rw [hg]
      exact lerpFlip (icoRaw (faceAt fi).2.1) (icoRaw (faceAt fi).2.2) j ν hν0 (by omega)
  · rw [hk]
    rfl

/-! ## Claim C9: winding order -/

theorem latticePos_diff (ν fi i j i2 j2 : ℕ) :
    latticePos ν fi i2 j2 - latticePos ν fi i j
      = qr (((i2 : ℚ) - (i : ℚ)) / (ν : ℚ))
          • (icoRaw (faceAt fi).2.1 - icoRaw (faceAt fi).1)
        + qr (((j2 : ℚ) - (j : ℚ)) / (ν : ℚ))
          • (icoRaw (faceAt fi).2.2 - icoRaw (faceAt fi).1) := by
  ext <;> simp [latticePos, ofs] <;> ring

theorem cross_comb (u v : Vec3 Q5) (p q r s : Q5) :
    cross (p • u + q • v) (r • u + s • v) = (p * s - q * r) • cross u v := by
  ext <;> simp [cross] <;> ring

/-- Claim C9: every emitted sub-face is wound like its parent base face —
its raw corner positions have cross product a positive multiple (exactly
1/ν² times) of the parent's outward normal, and that normal points away
from the origin (positive inner product with the face's corner). -/
theorem C9_winding :
    ∀ ν : ℕ, 1 ≤ ν → ∀ fi, fi < 20 → ∀ t ∈ keyFacesOf ν fi,
      cross (keyPos ν t.2.1 - keyPos ν t.1) (keyPos ν t.2.2 - keyPos ν t.1)
        = ofs 1 (ν ^ 2) • faceNormal fi ∧
      0 < emb (dot (icoRaw (faceAt fi).1) (faceNormal fi)) := by
  intro ν hν fi hf t ht
  have hν0 : ((ν : ℚ)) ≠ 0 := Nat.cast_ne_zero.mpr (by omega)
  constructor
  · unfold keyFacesOf at ht
    rw [List.mem_append] at ht
    rcases ht with ht | ht <;> rw [List.mem_map] at ht <;>
      obtain ⟨p, hp, rfl⟩ := ht <;> rw [mem_ijLt] at hp
    · have h1 : p.1 + p.2 ≤ ν := by omega
      have h2 : (p.1 + 1) + p.2 ≤ ν := by omega
      have h3 : p.1 + (p.2 + 1) ≤ ν := by omega
      show cross (keyPos ν (kf ν fi (p.1 + 1) p.2) - keyPos ν (kf ν fi p.1 p.2))
        (keyPos ν (kf ν fi p.1 (p.2 + 1)) - keyPos ν (kf ν fi p.1 p.2))
        = ofs 1 (ν ^ 2) • faceNormal fi
      rw [keyPos_kf hν hf h1, keyPos_kf hν hf h2, keyPos_kf hν hf h3,
        latticePos_diff, latticePos_diff]
      unfold faceNormal
      rw [cross_comb]
      congr 1
      rw [Q5.ext_iff]
      constructor <;> simp [ofs] <;> push_cast <;> field_simp <;> ring
    · have h1 : (p.1 + 1) + p.2 ≤ ν := by omega
      have h2 : (p.1 + 1) + (p.2 + 1) ≤ ν := by omega
      have h3 : p.1 + (p.2 + 1) ≤ ν := by omega
      show cross (keyPos ν (kf ν fi (p.1 + 1) (p.2 + 1)) - keyPos ν (kf ν fi (p.1 + 1) p.2))
        (keyPos ν (kf ν fi p.1 (p.2 + 1)) - keyPos ν (kf ν fi (p.1 + 1) p.2))
        = ofs 1 (ν ^ 2) • faceNormal fi
      rw [keyPos_kf hν hf h1, keyPos_kf hν hf h2, keyPos_kf hν hf h3,
        latticePos_diff, latticePos_diff]
      unfold faceNormal
      rw [cross_comb]
      congr 1
      rw [Q5.ext_iff]
      constructor <;> simp [ofs] <;> push_cast <;> field_simp <;> ring
  · have hmem : faceAt fi ∈ icoFaces := by
      show icoFaces.getD fi (0, 0, 0) ∈ icoFaces
      rw [List.getD_eq_getElem icoFaces (0, 0, 0) (by exact hf)]
      exact List.getElem_mem _
    unfold faceNormal
    rw [icoFaces_dot_normal _ hmem]
    exact emb_three_one_pos

theorem C9_winding_witness :
    cross (keyPos 1 (VKey.corner 11) - keyPos 1 (VKey.corner 0))
        (keyPos 1 (VKey.corner 5) - keyPos 1 (VKey.corner 0))
      = ofs 1 (1 ^ 2) • faceNormal 0 ∧
    0 < emb (dot (icoRaw (faceAt 0).1) (faceNormal 0)) :=
  C9_winding 1 (by norm_num) 0 (by norm_num)
    (VKey.corner 0, VKey.corner 11, VKey.corner 5) (by decide)

/-! ## Claim C4: deduplication resolves shared points and only them -/

/-- The base vertex at which the lattice point (i, j) of face fi sits, when
it is a face corner (spec §4.3 (a)). -/
def cornerAt (ν fi i j : ℕ) : Option ℕ :=
  if i = 0 ∧ j = 0 then some (faceAt fi).1
  else if i = ν ∧ j = 0 then some (faceAt fi).2.1
  else if i = 0 ∧ j = ν then some (faceAt fi).2.2
  else none

/-- The lattice point (i, j) of face fi lies on the face side directed
s → t at parametric offset o (spec §4.3 (b)). -/
def onSide (ν fi i j s t o : ℕ) : Prop :=
  (j = 0 ∧ s = (faceAt fi).1 ∧ t = (faceAt fi).2.1 ∧ o = i) ∨
  (i = 0 ∧ s = (faceAt fi).1 ∧ t = (faceAt fi).2.2 ∧ o = j) ∨
  (i + j = ν ∧ s = (faceAt fi).2.1 ∧ t = (faceAt fi).2.2 ∧ o = j)

/-- Modelled from the spec (§4.3): two lattice points are "the same physical
location" iff both are BaseFace corners at the same shared base vertex, or
both lie on the same shared boundary edge at the matching parametric offset
(mirrored when the two faces traverse the edge in opposite directions). -/
def SameLoc (ν fi i j fj i2 j2 : ℕ) : Prop :=
  (∃ w, cornerAt ν fi i j = some w ∧ cornerAt ν fj i2 j2 = some w) ∨
  (∃ s t o s2 t2 o2, onSide ν fi i j s t o ∧ onSide ν fj i2 j2 s2 t2 o2 ∧
    ((s = s2 ∧ t = t2 ∧ o = o2) ∨ (s = t2 ∧ t = s2 ∧ o + o2 = ν)))

/-- The canonical key of the point at offset o along the directed side
s → t. -/
def sideKey (ν s t o : ℕ) : VKey :=
  if o = 0 then VKey.corner s
  else if o = ν then VKey.corner t
  else edgeKey ν s t o

theorem edgeIndex_comm (s t : ℕ) : edgeIndex s t = edgeIndex t s := by
  unfold edgeIndex
  rw [min_comm, max_comm]

theorem edgeKey_ne_corner (ν u v k w : ℕ) : edgeKey ν u v k ≠ VKey.corner w := by
  unfold edgeKey
  split_ifs <;> simp

theorem edgeKey_ne_inner (ν u v k f i j : ℕ) : edgeKey ν u v k ≠ VKey.inner f i j := by
  unfold edgeKey
  split_ifs <;> simp

theorem cornerAt_comp1 (ν fi : ℕ) : cornerAt ν fi 0 0 = some (faceAt fi).1 := by
  unfold cornerAt
  simp

theorem cornerAt_comp2 {ν : ℕ} (fi : ℕ) (hν : 1 ≤ ν) :
    cornerAt ν fi ν 0 = some (faceAt fi).2.1 := by
  unfold cornerAt
  rw [if_neg (by omega), if_pos ⟨rfl, rfl⟩]

theorem cornerAt_comp3 {ν : ℕ} (fi : ℕ) (hν : 1 ≤ ν) :
    cornerAt ν fi 0 ν = some (faceAt fi).2.2 := by
  unfold cornerAt
  rw [if_neg (by omega), if_neg (by omega), if_pos ⟨rfl, rfl⟩]

/-- Keys of matching offsets along an edge agree after inverting the
traversal direction. -/
theorem sideKey_flip {ν s t o : ℕ} (hν : 1 ≤ ν) (hst : s ≠ t) (ho : o ≤ ν) :
    sideKey ν s t o = sideKey ν t s (ν - o) := by
  by_cases h0 : o = 0
  · subst h0
    unfold sideKey
    rw [if_pos rfl, if_neg (by omega), if_pos (by omega)]
  · by_cases hn : o = ν
    · subst hn
      unfold sideKey
      rw [if_neg (by omega), if_pos rfl, if_pos (by omega)]
    · unfold sideKey
      rw [if_neg h0, if_neg hn, if_neg (by omega), if_neg (by omega)]
      unfold edgeKey
      rcases lt_or_gt_of_ne hst with hlt | hgt
      · rw [if_pos hlt, if_neg (by omega), edgeIndex_comm t s]
        congr 1
        omega
      · rw [if_neg (by omega), if_pos hgt, edgeIndex_comm t s]

/-- A key along an edge determines the undirected edge and the offset. -/
theorem edgeKey_inj {ν x y o x2 y2 o2 : ℕ} (hE1 : edgeOK x y) (hE2 : edgeOK x2 y2)
    (hxy : x ≠ y) (hxy2 : x2 ≠ y2) (ho : o ≤ ν) (ho2 : o2 ≤ ν)
    (he : edgeKey ν x y o = edgeKey ν x2 y2 o2) :
    (x = x2 ∧ y = y2 ∧ o = o2) ∨ (x = y2 ∧ y = x2 ∧ o + o2 = ν) := by
  have key : edgeIndex x y = edgeIndex x2 y2 →
      (min x y, max x y) = (min x2 y2, max x2 y2) := by
    intro h
    rw [← hE1.2, ← hE2.2, h]
  rcases edgeKey_cases ν x y o with ⟨h1, e1⟩ | ⟨h1, e1⟩ <;>
    rcases edgeKey_cases ν x2 y2 o2 with ⟨h2, e2⟩ | ⟨h2, e2⟩ <;>
    rw [e1, e2] at he <;>
    obtain ⟨hei, hoo⟩ := (VKey.onEdge.injEq _ _ _ _).mp he <;>
    have hmm := key hei <;>
    simp only [Prod.mk.injEq] at hmm
  · rw [min_eq_left (le_of_lt h1), max_eq_right (le_of_lt h1),
      min_eq_left (le_of_lt h2), max_eq_right (le_of_lt h2)] at hmm
    exact Or.inl ⟨hmm.1, hmm.2, hoo⟩
  · have h2' : y2 < x2 := by omega
    rw [min_eq_left (le_of_lt h1), max_eq_right (le_of_lt h1),
      min_eq_right (le_of_lt h2'), max_eq_left (le_of_lt h2')] at hmm
    exact Or.inr ⟨hmm.1, hmm.2, by omega⟩
  · have h1' : y < x := by omega
    rw [min_eq_right (le_of_lt h1'), max_eq_left (le_of_lt h1'),
      min_eq_left (le_of_lt h2), max_eq_right (le_of_lt h2)] at hmm
    exact Or.inr ⟨hmm.2, hmm.1, by omega⟩
  · have h1' : y < x := by omega
    have h2' : y2 < x2 := by omega
    rw [min_eq_right (le_of_lt h1'), max_eq_left (le_of_lt h1'),
      min_eq_right (le_of_lt h2'), max_eq_left (le_of_lt h2')] at hmm
    exact Or.inl ⟨hmm.2, hmm.1, by omega⟩

theorem kf_of_cornerAt {ν fi i j w : ℕ} (hw : cornerAt ν fi i j = some w) :
    kf ν fi i j = VKey.corner w := by
  unfold cornerAt at hw
  unfold kf
  split_ifs at hw with h1 h2 h3 <;>
    simp only [Option.some.injEq] at hw <;>
    rw [← hw]
  · rw [if_pos h1]
  · rw [if_neg h1, if_pos h2]
  · rw [if_neg h1, if_neg h2, if_pos h3]

theorem kf_of_onSide {ν fi i j s t o : ℕ} (hν : 1 ≤ ν) (hij : i + j ≤ ν)
    (hs : onSide ν fi i j s t o) : kf ν fi i j = sideKey ν s t o ∧ o ≤ ν := by
  rcases hs with ⟨hj, rfl, rfl, rfl⟩ | ⟨hi, rfl, rfl, rfl⟩ | ⟨hsum, rfl, rfl, rfl⟩
  · subst hj
    refine ⟨?_, by omega⟩
    unfold kf sideKey
    split_ifs <;> first | rfl | omega
  · subst hi
    refine ⟨?_, by omega⟩
    unfold kf sideKey
    split_ifs <;> first | rfl | omega
  · refine ⟨?_, by omega⟩
    unfold kf sideKey
    split_ifs <;> first | rfl | omega

theorem kf_eq_of_sameLoc {ν fi i j fj i2 j2 : ℕ} (hν : 1 ≤ ν)
    (hfi : fi < 20) (hfj : fj < 20) (hv1 : i + j ≤ ν) (hv2 : i2 + j2 ≤ ν)
    (h : SameLoc ν fi i j fj i2 j2) : kf ν fi i j = kf ν fj i2 j2 := by
  rcases h with ⟨w, hw1, hw2⟩ | ⟨s, t, o, s2, t2, o2, hs1, hs2, hmatch⟩
  · rw [kf_of_cornerAt hw1, kf_of_cornerAt hw2]
  · obtain ⟨hk1, ho1⟩ := kf_of_onSide hν hv1 hs1
    obtain ⟨hk2, ho2⟩ := kf_of_onSide hν hv2 hs2
    have hst : s ≠ t := by
      obtain ⟨ha12, hb12, hc12, hab, hac, hbc, _⟩ := faceOK_all fi hfi
      rcases hs1 with ⟨_, rfl, rfl, _⟩ | ⟨_, rfl, rfl, _⟩ | ⟨_, rfl, rfl, _⟩ <;>
        assumption
    rw [hk1, hk2]
    rcases hmatch with ⟨rfl, rfl, rfl⟩ | ⟨h1, h2, h3⟩
    · rfl
    · subst h1
      subst h2
      rw [sideKey_flip hν hst ho1]
      congr 1
      omega

theorem sameLoc_side {ν fi i j fj i2 j2 x y o x2 y2 o2 : ℕ}
    (hs1 : onSide ν fi i j x y o) (hs2 : onSide ν fj i2 j2 x2 y2 o2)
    (hE1 : edgeOK x y) (hE2 : edgeOK x2 y2) (hxy : x ≠ y) (hxy2 : x2 ≠ y2)
    (ho : o ≤ ν) (ho2 : o2 ≤ ν)
    (he : edgeKey ν x y o = edgeKey ν x2 y2 o2) : SameLoc ν fi i j fj i2 j2 := by
  rcases edgeKey_inj hE1 hE2 hxy hxy2 ho ho2 he with h | h
  · exact Or.inr ⟨x, y, o, x2, y2, o2, hs1, hs2, Or.inl h⟩
  · exact Or.inr ⟨x, y, o, x2, y2, o2, hs1, hs2, Or.inr h⟩

set_option maxHeartbeats 1000000 in
theorem sameLoc_of_kf_eq {ν fi i j fj i2 j2 : ℕ} (hν : 1 ≤ ν)
    (hfi : fi < 20) (hfj : fj < 20) (hv1 : i + j ≤ ν) (hv2 : i2 + j2 ≤ ν)
    (he : kf ν fi i j = kf ν fj i2 j2) :
    (fi = fj ∧ i = i2 ∧ j = j2) ∨ SameLoc ν fi i j fj i2 j2 := by
  obtain ⟨ha12, hb12, hc12, hab, hac, hbc, hEab, hEac, hEbc, _, _, _⟩ :=
    faceOK_all fi hfi
  obtain ⟨hA12, hB12, hC12, hab2, hac2, hbc2, hEab2, hEac2, hEbc2, _, _, _⟩ :=
    faceOK_all fj hfj
  rcases @kf_cases ν fi _ _ hν hv1 with
    ⟨hA1, hA2, hk1⟩ | ⟨hA1, hA2, hk1⟩ | ⟨hA1, hA2, hk1⟩ | ⟨hA1, hA2, hA3, hk1⟩ |
    ⟨hA1, hA2, hA3, hk1⟩ | ⟨hA1, hA2, hA3, hk1⟩ | ⟨hA1, hA2, hA3, hk1⟩ <;>
  rcases @kf_cases ν fj _ _ hν hv2 with
    ⟨hB1, hB2, hk2⟩ | ⟨hB1, hB2, hk2⟩ | ⟨hB1, hB2, hk2⟩ | ⟨hB1, hB2, hB3, hk2⟩ |
    ⟨hB1, hB2, hB3, hk2⟩ | ⟨hB1, hB2, hB3, hk2⟩ | ⟨hB1, hB2, hB3, hk2⟩ <;>
  rw [hk1, hk2] at he
  all_goals try exact VKey.noConfusion he
  all_goals try exact absurd he (edgeKey_ne_corner _ _ _ _ _)
  all_goals try exact absurd he.symm (edgeKey_ne_corner _ _ _ _ _)
  all_goals try exact absurd he (edgeKey_ne_inner _ _ _ _ _ _ _)
  all_goals try exact absurd he.symm (edgeKey_ne_inner _ _ _ _ _ _ _)
  -- corner-corner blocks
  · have hc1 : cornerAt ν fi i j = some (faceAt fi).1 := by
      rw [hA1, hA2] ; exact cornerAt_comp1 ν fi
    have hc2 : cornerAt ν fj i2 j2 = some (faceAt fj).1 := by
      rw [hB1, hB2] ; exact cornerAt_comp1 ν fj
    have hw : (faceAt fi).1 = (faceAt fj).1 := by simpa using he
    exact Or.inr (Or.inl ⟨(faceAt fi).1, hc1, by rw [hw] ; exact hc2⟩)
  · have hc1 : cornerAt ν fi i j = some (faceAt fi).1 := by
      rw [hA1, hA2] ; exact cornerAt_comp1 ν fi
    have hc2 : cornerAt ν fj i2 j2 = some (faceAt fj).2.1 := by
      rw [hB1, hB2] ; exact cornerAt_comp2 fj hν
    have hw : (faceAt fi).1 = (faceAt fj).2.1 := by simpa using he
    exact Or.inr (Or.inl ⟨(faceAt fi).1, hc1, by rw [hw] ; exact hc2⟩)
  · have hc1 : cornerAt ν fi i j = some (faceAt fi).1 := by
      rw [hA1, hA2] ; exact cornerAt_comp1 ν fi
    have hc2 : cornerAt ν fj i2 j2 = some (faceAt fj).2.2 := by
      rw [hB1, hB2] ; exact cornerAt_comp3 fj hν
    have hw : (faceAt fi).1 = (faceAt fj).2.2 := by simpa using he
    exact Or.inr (Or.inl ⟨(faceAt fi).1, hc1, by rw [hw] ; exact hc2⟩)
  · have hc1 : cornerAt ν fi i j = some (faceAt fi).2.1 := by
      rw [hA1, hA2] ; exact cornerAt_comp2 fi hν
    have hc2 : cornerAt ν fj i2 j2 = some (faceAt fj).1 := by
      rw [hB1, hB2] ; exact cornerAt_comp1 ν fj
    have hw : (faceAt fi).2.1 = (faceAt fj).1 := by simpa using he
    exact Or.inr (Or.inl ⟨(faceAt fi).2.1, hc1, by rw [hw] ; exact hc2⟩)
  · have hc1 : cornerAt ν fi i j = some (faceAt fi).2.1 := by
      rw [hA1, hA2] ; exact cornerAt_comp2 fi hν
    have hc2 : cornerAt ν fj i2 j2 = some (faceAt fj).2.1 := by
      rw [hB1, hB2] ; exact cornerAt_comp2 fj hν
    have hw : (faceAt fi).2.1 = (faceAt fj).2.1 := by simpa using he
    exact Or.inr (Or.inl ⟨(faceAt fi).2.1, hc1, by rw [hw] ; exact hc2⟩)
  · have hc1 : cornerAt ν fi i j = some (faceAt fi).2.1 := by
      rw [hA1, hA2] ; exact cornerAt_comp2 fi hν
    have hc2 : cornerAt ν fj i2 j2 = some (faceAt fj).2.2 := by
      rw [hB1, hB2] ; exact cornerAt_comp3 fj hν
    have hw : (faceAt fi).2.1 = (faceAt fj).2.2 := by simpa using he
    exact Or.inr (Or.inl ⟨(faceAt fi).2.1, hc1, by rw [hw] ; exact hc2⟩)
  · have hc1 : cornerAt ν fi i j = some (faceAt fi).2.2 := by
      rw [hA1, hA2] ; exact cornerAt_comp3 fi hν
    have hc2 : cornerAt ν fj i2 j2 = some (faceAt fj).1 := by
      rw [hB1, hB2] ; exact cornerAt_comp1 ν fj
    have hw : (faceAt fi).2.2 = (faceAt fj).1 := by simpa using he
    exact Or.inr (Or.inl ⟨(faceAt fi).2.2, hc1, by rw [hw] ; exact hc2⟩)
  · have hc1 : cornerAt ν fi i j = some (faceAt fi).2.2 := by
      rw [hA1, hA2] ; exact cornerAt_comp3 fi hν
    have hc2 : cornerAt ν fj i2 j2 = some (faceAt fj).2.1 := by
      rw [hB1, hB2] ; exact cornerAt_comp2 fj hν
    have hw : (faceAt fi).2.2 = (faceAt fj).2.1 := by simpa using he
    exact Or.inr (Or.inl ⟨(faceAt fi).2.2, hc1, by rw [hw] ; exact hc2⟩)
  · have hc1 : cornerAt ν fi i j = some (faceAt fi).2.2 := by
      rw [hA1, hA2] ; exact cornerAt_comp3 fi hν
    have hc2 : cornerAt ν fj i2 j2 = some (faceAt fj).2.2 := by
      rw [hB1, hB2] ; exact cornerAt_comp3 fj hν
    have hw : (faceAt fi).2.2 = (faceAt fj).2.2 := by simpa using he
    exact Or.inr (Or.inl ⟨(faceAt fi).2.2, hc1, by rw [hw] ; exact hc2⟩)
  -- edge-edge blocks
  · subst hA3 ; subst hB3
    exact Or.inr (sameLoc_side (Or.inl ⟨rfl, rfl, rfl, rfl⟩) (Or.inl ⟨rfl, rfl, rfl, rfl⟩)
      hEab hEab2 hab hab2 (by omega) (by omega) he)
  · subst hA3 ; subst hB3
    exact Or.inr (sameLoc_side (Or.inl ⟨rfl, rfl, rfl, rfl⟩)
      (Or.inr (Or.inl ⟨rfl, rfl, rfl, rfl⟩))
      hEab hEac2 hab hac2 (by omega) (by omega) he)
  · subst hA3
    exact Or.inr (sameLoc_side (Or.inl ⟨rfl, rfl, rfl, rfl⟩)
      (Or.inr (Or.inr ⟨hB3, rfl, rfl, rfl⟩))
      hEab hEbc2 hab hbc2 (by omega) (by omega) he)
  · subst hA3 ; subst hB3
    exact Or.inr (sameLoc_side (Or.inr (Or.inl ⟨rfl, rfl, rfl, rfl⟩))
      (Or.inl ⟨rfl, rfl, rfl, rfl⟩)
      hEac hEab2 hac hab2 (by omega) (by omega) he)
  · subst hA3 ; subst hB3
    exact Or.inr (sameLoc_side (Or.inr (Or.inl ⟨rfl, rfl, rfl, rfl⟩))
      (Or.inr (Or.inl ⟨rfl, rfl, rfl, rfl⟩))
      hEac hEac2 hac hac2 (by omega) (by omega) he)
  · subst hA3
    exact Or.inr (sameLoc_side (Or.inr (Or.inl ⟨rfl, rfl, rfl, rfl⟩))
      (Or.inr (Or.inr ⟨hB3, rfl, rfl, rfl⟩))
      hEac hEbc2 hac hbc2 (by omega) (by omega) he)
  · subst hB3
    exact Or.inr (sameLoc_side (Or.inr (Or.inr ⟨hA3, rfl, rfl, rfl⟩))
      (Or.inl ⟨rfl, rfl, rfl, rfl⟩)
      hEbc hEab2 hbc hab2 (by omega) (by omega) he)
  · subst hB3
    exact Or.inr (sameLoc_side (Or.inr (Or.inr ⟨hA3, rfl, rfl, rfl⟩))
      (Or.inr (Or.inl ⟨rfl, rfl, rfl, rfl⟩))
      hEbc hEac2 hbc hac2 (by omega) (by omega) he)
  · exact Or.inr (sameLoc_side (Or.inr (Or.inr ⟨hA3, rfl, rfl, rfl⟩))
      (Or.inr (Or.inr ⟨hB3, rfl, rfl, rfl⟩))
      hEbc hEbc2 hbc hbc2 (by omega) (by omega) he)
  -- interior-interior block
  · have h := (VKey.inner.injEq _ _ _ _ _ _).mp he
    exact Or.inl ⟨h.1, h.2.1, h.2.2⟩

/-- Claim C4: boundary lattice points sharing a base corner or lying on the
same base edge at the matching parametric offset resolve to exactly one
global vertex index (and to the same physical position), regardless of which
face produced them; interior points never share their index with any other
lattice point. -/
theorem C4_dedup :
    ∀ ν : ℕ, 1 ≤ ν → ∀ fi fj i j i2 j2 : ℕ, fi < 20 → fj < 20 →
      i + j ≤ ν → i2 + j2 ≤ ν →
      ((idx ν (kf ν fi i j) = idx ν (kf ν fj i2 j2)) ↔
        ((fi = fj ∧ i = i2 ∧ j = j2) ∨ SameLoc ν fi i j fj i2 j2)) ∧
      (SameLoc ν fi i j fj i2 j2 → latticePos ν fi i j = latticePos ν fj i2 j2) := by
  intro ν hν fi fj i j i2 j2 hfi hfj hv1 hv2
  constructor
  · constructor
    · intro h
      exact sameLoc_of_kf_eq hν hfi hfj hv1 hv2
        (idx_inj (kf_mem hν hfi hv1) (kf_mem hν hfj hv2) h)
    · intro h
      rcases h with ⟨rfl, rfl, rfl⟩ | h
      · rfl
      · rw [kf_eq_of_sameLoc hν hfi hfj hv1 hv2 h]
  · intro h
    rw [← keyPos_kf hν hfi hv1, ← keyPos_kf hν hfj hv2,
      kf_eq_of_sameLoc hν hfi hfj hv1 hv2 h]

theorem C4_dedup_witness :
    idx 2 (kf 2 0 1 0) = idx 2 (kf 2 4 0 1) ∧
    latticePos 2 0 1 0 = latticePos 2 4 0 1 := by
  have h := C4_dedup 2 (by norm_num) 0 4 1 0 0 1 (by norm_num) (by norm_num)
    (by norm_num) (by norm_num)
  have hsl : SameLoc 2 0 1 0 4 0 1 := by
    refine Or.inr ⟨0, 11, 1, 0, 11, 1, Or.inl ⟨rfl, ?_, ?_, rfl⟩,
      Or.inr (Or.inl ⟨rfl, ?_, ?_, rfl⟩), Or.inl ⟨rfl, rfl, rfl⟩⟩ <;> decide
  exact ⟨(h.1).mpr (Or.inr hsl), h.2 hsl⟩

/-! ## Claim C2: the mesh is a closed 2-manifold -/

/-- The three undirected edges of an index triangle. -/
def edgesOfTri (t : ℕ × ℕ × ℕ) : List (Sym2 ℕ) :=
  [s(t.1, t.2.1), s(t.2.1, t.2.2), s(t.2.2, t.1)]

/-- All undirected edges of the output mesh, one per face slot. -/
def meshEdges (ν : ℕ) : List (Sym2 ℕ) := (meshFaces ν).flatMap edgesOfTri

/-- The three undirected edges of a key triangle. -/
def keyEdgesOfTri (t : VKey × VKey × VKey) : List (Sym2 VKey) :=
  [s(t.1, t.2.1), s(t.2.1, t.2.2), s(t.2.2, t.1)]

/-- All undirected key edges of the mesh, one per face slot. -/
def keyEdges (ν : ℕ) : List (Sym2 VKey) := (keyFaces ν).flatMap keyEdgesOfTri

/-- The "horizontal" lattice edge (i,j)–(i+1,j) of a face, as keys. -/
def hEdge (ν fi i j : ℕ) : Sym2 VKey := s(kf ν fi i j, kf ν fi (i + 1) j)

/-- The "vertical" lattice edge (i,j)–(i,j+1) of a face, as keys. -/
def vEdge (ν fi i j : ℕ) : Sym2 VKey := s(kf ν fi i j, kf ν fi i (j + 1))

/-- The "diagonal" lattice edge (i+1,j)–(i,j+1) of a face, as keys. -/
def dEdge (ν fi i j : ℕ) : Sym2 VKey := s(kf ν fi (i + 1) j, kf ν fi i (j + 1))

/-- The canonical key of the point at offset k (0 ≤ k ≤ ν) along table edge
number e, traversed from its smaller endpoint. -/
def ekey (ν e k : ℕ) : VKey :=
  if k = 0 then VKey.corner (icoEdges.getD e (0, 0)).1
  else if k = ν then VKey.corner (icoEdges.getD e (0, 0)).2
  else VKey.onEdge e k

/-- The k-th sub-edge (of ν) along table edge number e. -/
def subEdge (ν e k : ℕ) : Sym2 VKey := s(ekey ν e k, ekey ν e (k + 1))

/-- All sub-edges lying along the 30 base edges, each listed once. -/
def subEdges (ν : ℕ) : List (Sym2 VKey) :=
  (List.range 30).flatMap (fun e => (List.range ν).map (subEdge ν e))

/-- The horizontal lattice edges interior to face fi (those with j ≥ 1). -/
def intH (ν fi : ℕ) : List (Sym2 VKey) :=
  (ijLt (ν - 1)).map (fun p => hEdge ν fi p.1 (p.2 + 1))

/-- The vertical lattice edges interior to face fi (those with i ≥ 1). -/
def intV (ν fi : ℕ) : List (Sym2 VKey) :=
  (ijLt (ν - 1)).map (fun p => vEdge ν fi (p.1 + 1) p.2)

/-- The diagonal lattice edges interior to face fi (i + j < ν − 1). -/
def intD (ν fi : ℕ) : List (Sym2 VKey) :=
  (ijLt (ν - 1)).map (fun p => dEdge ν fi p.1 p.2)

/-- All face-interior lattice edges, each listed once. -/
def intEdges (ν : ℕ) : List (Sym2 VKey) :=
  (List.range 20).flatMap (fun fi => intH ν fi ++ intV ν fi ++ intD ν fi)

/-- Every undirected edge of the subdivided icosahedron, each listed once. -/
def dEdges (ν : ℕ) : List (Sym2 VKey) := subEdges ν ++ intEdges ν

/-- The edge-table index of the AB side of face fi. -/
abbrev eab (fi : ℕ) : ℕ := edgeIndex (faceAt fi).1 (faceAt fi).2.1

/-- The edge-table index of the AC side of face fi. -/
abbrev eac (fi : ℕ) : ℕ := edgeIndex (faceAt fi).1 (faceAt fi).2.2

/-- The edge-table index of the BC side of face fi. -/
abbrev ebc (fi : ℕ) : ℕ := edgeIndex (faceAt fi).2.1 (faceAt fi).2.2

/-- The list of the 60 side indices of the 20 faces. -/
def sideList : List ℕ := (List.range 20).flatMap (fun fi => [eab fi, eac fi, ebc fi])

/-- Every base edge is a side of exactly two faces. -/
theorem sideList_count : ∀ e, e < 30 → sideList.count e = 2 := by decide

/-- Every face-side index is a valid edge index. -/
theorem sideList_lt : ∀ x ∈ sideList, x < 30 := by decide

/-! ### Counting infrastructure -/

/-- Indicator of the edge e. -/
def chi (e x : Sym2 VKey) : ℕ := if x = e then 1 else 0

theorem chi_swap (e : Sym2 VKey) (a b : VKey) : chi e s(a, b) = chi e s(b, a) := by
  unfold chi
  rw [Sym2.eq_swap]

theorem count_triple (e a b c : Sym2 VKey) :
    ([a, b, c] : List (Sym2 VKey)).count e = chi e a + chi e b + chi e c := by
  simp only [List.count_cons, List.count_nil, beq_iff_eq, chi]
  ring

theorem count_map_chi {α : Type} (l : List α) (g : α → Sym2 VKey) (e : Sym2 VKey) :
    (l.map g).count e = (l.map (fun p => chi e (g p))).sum := by
  induction l with
  | nil => simp
  | cons x xs ih =>
    simp only [List.map_cons, List.count_cons, List.sum_cons, beq_iff_eq, chi, ih]
    ring

/-- The triangular index domain as a finset. -/
def triF (m : ℕ) : Finset (ℕ × ℕ) :=
  Finset.filter (fun p => p.1 + p.2 < m) (Finset.range m ×ˢ Finset.range m)

theorem mem_triF {m : ℕ} {p : ℕ × ℕ} : p ∈ triF m ↔ p.1 + p.2 < m := by
  unfold triF
  rw [Finset.mem_filter, Finset.mem_product, Finset.mem_range, Finset.mem_range]
  omega

theorem toFinset_ijLt (m : ℕ) : (ijLt m).toFinset = triF m := by
  ext p
  rw [List.mem_toFinset, mem_ijLt, mem_triF]

theorem sum_map_ijLt (m : ℕ) (g : ℕ × ℕ → ℕ) :
    ((ijLt m).map g).sum = ∑ p ∈ triF m, g p := by
  rw [← List.sum_toFinset g (nodup_ijLt m), toFinset_ijLt]

theorem count_flatMap_map {α β : Type} [DecidableEq β] (l : List α) (f : α → β)
    (g : β → List (Sym2 VKey)) (e : Sym2 VKey) :
    (((l.map f).flatMap g).count e) = (l.map (fun x => (g (f x)).count e)).sum := by
  rw [List.count_flatMap, List.map_map]
  rfl

theorem sum_flatMap_map {α : Type} (l : List α) (f : α → List ℕ) :
    (l.flatMap f).sum = (l.map (fun x => (f x).sum)).sum := by
  induction l with
  | nil => rfl
  | cons x xs ih => simp [List.flatMap_cons, ih]

theorem sum_count_weighted (l : List ℕ) (n : ℕ) (hl : ∀ x ∈ l, x < n) (g : ℕ → ℕ) :
    (l.map g).sum = ∑ k ∈ Finset.range n, l.count k * g k := by
  induction l with
  | nil => simp
  | cons x xs ih =>
    have hx : x ∈ Finset.range n := Finset.mem_range.mpr (hl x (by simp))
    have ih2 := ih (fun y hy => hl y (by simp [hy]))
    simp only [List.map_cons, List.sum_cons, List.count_cons, ih2]
    have hsplit : ∀ k, (xs.count k + if x == k then 1 else 0) * g k
        = xs.count k * g k + (if x = k then g k else 0) := by
      intro k
      by_cases h : x = k <;> simp [h] <;> ring
    rw [Finset.sum_congr rfl (fun k _ => hsplit k), Finset.sum_add_distrib,
      Finset.sum_ite_eq, if_pos hx]
    ring

/-! ### From side keys to table-edge keys -/

theorem edgeOK_comm {u v : ℕ} (h : edgeOK u v) : edgeOK v u := by
  unfold edgeOK at h ⊢
  rw [edgeIndex_comm v u, min_comm v u, max_comm v u]
  exact h

theorem kf_side_ab (ν fi k : ℕ) (hν : 1 ≤ ν) (hk : k ≤ ν) :
    kf ν fi k 0 = sideKey ν (faceAt fi).1 (faceAt fi).2.1 k :=
  (kf_of_onSide hν (by omega) (Or.inl ⟨rfl, rfl, rfl, rfl⟩)).1

theorem kf_side_ac (ν fi k : ℕ) (hν : 1 ≤ ν) (hk : k ≤ ν) :
    kf ν fi 0 k = sideKey ν (faceAt fi).1 (faceAt fi).2.2 k :=
  (kf_of_onSide hν (by omega) (Or.inr (Or.inl ⟨rfl, rfl, rfl, rfl⟩))).1

theorem kf_side_bc (ν fi k : ℕ) (hν : 1 ≤ ν) (hk : k ≤ ν) :
    kf ν fi (ν - k) k = sideKey ν (faceAt fi).2.1 (faceAt fi).2.2 k :=
  (kf_of_onSide hν (by omega) (Or.inr (Or.inr ⟨by omega, rfl, rfl, rfl⟩))).1

theorem sideKey_ekey_lt {ν s t o : ℕ} (hE : edgeOK s t) (hlt : s < t) :
    sideKey ν s t o = ekey ν (edgeIndex s t) o := by
  have hg : icoEdges.getD (edgeIndex s t) (0, 0) = (s, t) := by
    rw [hE.2, min_eq_left (le_of_lt hlt), max_eq_right (le_of_lt hlt)]
  unfold sideKey ekey edgeKey
  rw [hg]
  split_ifs <;> first | rfl | omega

theorem sideKey_ekey_gt {ν s t o : ℕ} (hν : 1 ≤ ν) (hE : edgeOK t s)
    (hgt : t < s) (ho : o ≤ ν) :
    sideKey ν s t o = ekey ν (edgeIndex s t) (ν - o) := by
  have hg : icoEdges.getD (edgeIndex s t) (0, 0) = (t, s) := by
    rw [edgeIndex_comm s t, hE.2, min_eq_left (le_of_lt hgt),
      max_eq_right (le_of_lt hgt)]
  unfold sideKey ekey edgeKey
  rw [hg]
  split_ifs <;> first | rfl | omega

/-- A run of ν consecutive side keys counts edges exactly like the run of
sub-edges of the underlying table edge (reversed if the side is traversed
against the table orientation). -/
theorem sum_chi_side {ν s t : ℕ} (hν : 1 ≤ ν) (hE : edgeOK s t) (hst : s ≠ t)
    (F : ℕ → Sym2 VKey) (e : Sym2 VKey)
    (hF : ∀ k, k < ν → F k = s(sideKey ν s t k, sideKey ν s t (k + 1))) :
    ∑ k ∈ Finset.range ν, chi e (F k)
      = ((List.range ν).map (subEdge ν (edgeIndex s t))).count e := by
  rw [count_map_chi, listSum_range]
  rcases lt_or_gt_of_ne hst with hlt | hgt
  · refine Finset.sum_congr rfl (fun k hk => ?_)
    rw [Finset.mem_range] at hk
    rw [hF k hk, sideKey_ekey_lt hE hlt, sideKey_ekey_lt hE hlt]
    rfl
  · have hE2 : edgeOK t s := edgeOK_comm hE
    have hstep : ∀ k, k < ν →
        chi e (F k) = chi e (subEdge ν (edgeIndex s t) (ν - 1 - k)) := by
      intro k hk
      rw [hF k hk, sideKey_ekey_gt hν hE2 hgt (by omega),
        sideKey_ekey_gt hν hE2 hgt (by omega), chi_swap]
      unfold subEdge
      have e1 : ν - (k + 1) = ν - 1 - k := by omega
      have e2 : ν - 1 - k + 1 = ν - k := by omega
      rw [e1, e2]
    rw [Finset.sum_congr rfl (fun k hk => hstep k (Finset.mem_range.mp hk))]
    exact Finset.sum_range_reflect
      (fun k => chi e (subEdge ν (edgeIndex s t) k)) ν

/-! ### Per-face edge counting -/

theorem count_up (ν fi : ℕ) (e : Sym2 VKey) :
    (((ijLt ν).map (fun p =>
        (kf ν fi p.1 p.2, kf ν fi (p.1 + 1) p.2, kf ν fi p.1 (p.2 + 1)))).flatMap
      keyEdgesOfTri).count e
      = ∑ p ∈ triF ν, (chi e (hEdge ν fi p.1 p.2) + chi e (dEdge ν fi p.1 p.2)
          + chi e (vEdge ν fi p.1 p.2)) := by
  rw [count_flatMap_map, ← sum_map_ijLt]
  apply congrArg List.sum
  apply List.map_congr_left
  intro p _
  show ([s(kf ν fi p.1 p.2, kf ν fi (p.1 + 1) p.2),
      s(kf ν fi (p.1 + 1) p.2, kf ν fi p.1 (p.2 + 1)),
      s(kf ν fi p.1 (p.2 + 1), kf ν fi p.1 p.2)] : List (Sym2 VKey)).count e = _
  rw [count_triple, chi_swap e (kf ν fi p.1 (p.2 + 1)) (kf ν fi p.1 p.2)]
  rfl

theorem count_down (ν fi : ℕ) (e : Sym2 VKey) :
    (((ijLt (ν - 1)).map (fun p =>
        (kf ν fi (p.1 + 1) p.2, kf ν fi (p.1 + 1) (p.2 + 1),
          kf ν fi p.1 (p.2 + 1)))).flatMap keyEdgesOfTri).count e
      = ∑ p ∈ triF (ν - 1), (chi e (vEdge ν fi (p.1 + 1) p.2)
          + chi e (hEdge ν fi p.1 (p.2 + 1)) + chi e (dEdge ν fi p.1 p.2)) := by
  rw [count_flatMap_map, ← sum_map_ijLt]
  apply congrArg List.sum
  apply List.map_congr_left
  intro p _
  show ([s(kf ν fi (p.1 + 1) p.2, kf ν fi (p.1 + 1) (p.2 + 1)),
      s(kf ν fi (p.1 + 1) (p.2 + 1), kf ν fi p.1 (p.2 + 1)),
      s(kf ν fi p.1 (p.2 + 1), kf ν fi (p.1 + 1) p.2)] : List (Sym2 VKey)).count e = _
  rw [count_triple,
    chi_swap e (kf ν fi (p.1 + 1) (p.2 + 1)) (kf ν fi p.1 (p.2 + 1)),
    chi_swap e (kf ν fi p.1 (p.2 + 1)) (kf ν fi (p.1 + 1) p.2)]
  rfl

theorem count_intH (ν fi : ℕ) (e : Sym2 VKey) :
    (intH ν fi).count e = ∑ p ∈ triF (ν - 1), chi e (hEdge ν fi p.1 (p.2 + 1)) := by
  unfold intH
  rw [count_map_chi, sum_map_ijLt]

theorem count_intV (ν fi : ℕ) (e : Sym2 VKey) :
    (intV ν fi).count e = ∑ p ∈ triF (ν - 1), chi e (vEdge ν fi (p.1 + 1) p.2) := by
  unfold intV
  rw [count_map_chi, sum_map_ijLt]

theorem count_intD (ν fi : ℕ) (e : Sym2 VKey) :
    (intD ν fi).count e = ∑ p ∈ triF (ν - 1), chi e (dEdge ν fi p.1 p.2) := by
  unfold intD
  rw [count_map_chi, sum_map_ijLt]

/-- Splitting the horizontal edges of a face into interior ones and those on
the AB side. -/
theorem splitH (m ν fi : ℕ) (e : Sym2 VKey) :
    ∑ p ∈ triF (m + 1), chi e (hEdge ν fi p.1 p.2)
      = (∑ p ∈ triF m, chi e (hEdge ν fi p.1 (p.2 + 1)))
        + ∑ k ∈ Finset.range (m + 1), chi e (hEdge ν fi k 0) := by
  rw [← Finset.sum_filter_add_sum_filter_not (triF (m + 1)) (fun p => 1 ≤ p.2)
    (fun p => chi e (hEdge ν fi p.1 p.2))]
  congr 1
  · refine Finset.sum_nbij' (fun p => (p.1, p.2 - 1)) (fun p => (p.1, p.2 + 1))
      ?_ ?_ ?_ ?_ ?_
    · intro a ha
      rw [Finset.mem_filter, mem_triF] at ha
      have h2 : 1 ≤ a.2 := ha.2
      rw [mem_triF]
      show a.1 + (a.2 - 1) < m
      omega
    · intro a ha
      rw [mem_triF] at ha
      rw [Finset.mem_filter, mem_triF]
      show a.1 + (a.2 + 1) < m + 1 ∧ 1 ≤ a.2 + 1
      omega
    · intro a ha
      rw [Finset.mem_filter, mem_triF] at ha
      have h2 : 1 ≤ a.2 := ha.2
      show (a.1, a.2 - 1 + 1) = a
      have h3 : a.2 - 1 + 1 = a.2 := by omega
      rw [h3]
    · intro a _
      show (a.1, a.2 + 1 - 1) = a
      rw [Nat.add_sub_cancel]
    · intro a ha
      rw [Finset.mem_filter, mem_triF] at ha
      have h2 : 1 ≤ a.2 := ha.2
      show chi e (hEdge ν fi a.1 a.2) = chi e (hEdge ν fi a.1 (a.2 - 1 + 1))
      have h3 : a.2 - 1 + 1 = a.2 := by omega
      rw [h3]
  · refine Finset.sum_nbij' (fun p => p.1) (fun k => (k, 0)) ?_ ?_ ?_ ?_ ?_
    · intro a ha
      rw [Finset.mem_filter, mem_triF] at ha
      have h2 : ¬ 1 ≤ a.2 := ha.2
      rw [Finset.mem_range]
      show a.1 < m + 1
      omega
    · intro k hk
      rw [Finset.mem_range] at hk
      rw [Finset.mem_filter, mem_triF]
      show k + 0 < m + 1 ∧ ¬ 1 ≤ (0 : ℕ)
      omega
    · intro a ha
      rw [Finset.mem_filter, mem_triF] at ha
      have h2 : ¬ 1 ≤ a.2 := ha.2
      show (a.1, 0) = a
      have h3 : a.2 = 0 := by omega
      rw [← h3]
    · intro k _
      rfl
    · intro a ha
      rw [Finset.mem_filter, mem_triF] at ha
      have h2 : ¬ 1 ≤ a.2 := ha.2
      have h3 : a.2 = 0 := by omega
      show chi e (hEdge ν fi a.1 a.2) = chi e (hEdge ν fi a.1 0)
      rw [← h3]

/-- Splitting the vertical edges of a face into interior ones and those on
the AC side. -/
theorem splitV (m ν fi : ℕ) (e : Sym2 VKey) :
    ∑ p ∈ triF (m + 1), chi e (vEdge ν fi p.1 p.2)
      = (∑ p ∈ triF m, chi e (vEdge ν fi (p.1 + 1) p.2))
        + ∑ k ∈ Finset.range (m + 1), chi e (vEdge ν fi 0 k) := by
  rw [← Finset.sum_filter_add_sum_filter_not (triF (m + 1)) (fun p => 1 ≤ p.1)
    (fun p => chi e (vEdge ν fi p.1 p.2))]
  congr 1
  · refine Finset.sum_nbij' (fun p => (p.1 - 1, p.2)) (fun p => (p.1 + 1, p.2))
      ?_ ?_ ?_ ?_ ?_
    · intro a ha
      rw [Finset.mem_filter, mem_triF] at ha
      have h2 : 1 ≤ a.1 := ha.2
      rw [mem_triF]
      show a.1 - 1 + a.2 < m
      omega
    · intro a ha
      rw [mem_triF] at ha
      rw [Finset.mem_filter, mem_triF]
      show a.1 + 1 + a.2 < m + 1 ∧ 1 ≤ a.1 + 1
      omega
    · intro a ha
      rw [Finset.mem_filter, mem_triF] at ha
      have h2 : 1 ≤ a.1 := ha.2
      show (a.1 - 1 + 1, a.2) = a
      have h3 : a.1 - 1 + 1 = a.1 := by omega
      rw [h3]
    · intro a _
      show (a.1 + 1 - 1, a.2) = a
      rw [Nat.add_sub_cancel]
    · intro a ha
      rw [Finset.mem_filter, mem_triF] at ha
      have h2 : 1 ≤ a.1 := ha.2
      show chi e (vEdge ν fi a.1 a.2) = chi e (vEdge ν fi (a.1 - 1 + 1) a.2)
      have h3 : a.1 - 1 + 1 = a.1 := by omega
      rw [h3]
  · refine Finset.sum_nbij' (fun p => p.2) (fun k => (0, k)) ?_ ?_ ?_ ?_ ?_
    · intro a ha
      rw [Finset.mem_filter, mem_triF] at ha
      have h2 : ¬ 1 ≤ a.1 := ha.2
      rw [Finset.mem_range]
      show a.2 < m + 1
      omega
    · intro k hk
      rw [Finset.mem_range] at hk
      rw [Finset.mem_filter, mem_triF]
      show 0 + k < m + 1 ∧ ¬ 1 ≤ (0 : ℕ)
      omega
    · intro a ha
      rw [Finset.mem_filter, mem_triF] at ha
      have h2 : ¬ 1 ≤ a.1 := ha.2
      show (0, a.2) = a
      have h3 : a.1 = 0 := by omega
      rw [← h3]
    · intro k _
      rfl
    · intro a ha
      rw [Finset.mem_filter, mem_triF] at ha
      have h2 : ¬ 1 ≤ a.1 := ha.2
      have h3 : a.1 = 0 := by omega
      show chi e (vEdge ν fi a.1 a.2) = chi e (vEdge ν fi 0 a.2)
      rw [← h3]

/-- Splitting the diagonal edges of a face into interior ones and those on
the BC side. -/
theorem splitD (m ν fi : ℕ) (e : Sym2 VKey) :
    ∑ p ∈ triF (m + 1), chi e (dEdge ν fi p.1 p.2)
      = (∑ p ∈ triF m, chi e (dEdge ν fi p.1 p.2))
        + ∑ k ∈ Finset.range (m + 1), chi e (dEdge ν fi (m - k) k) := by
  rw [← Finset.sum_filter_add_sum_filter_not (triF (m + 1)) (fun p => p.1 + p.2 < m)
    (fun p => chi e (dEdge ν fi p.1 p.2))]
  congr 1
  · apply Finset.sum_congr
    · ext p
      rw [Finset.mem_filter, mem_triF, mem_triF]
      exact ⟨fun h => h.2, fun h => ⟨by omega, h⟩⟩
    · exact fun _ _ => rfl
  · refine Finset.sum_nbij' (fun p => p.2) (fun k => (m - k, k)) ?_ ?_ ?_ ?_ ?_
    · intro a ha
      rw [Finset.mem_filter, mem_triF] at ha
      have h1 : a.1 + a.2 < m + 1 := ha.1
      rw [Finset.mem_range]
      show a.2 < m + 1
      omega
    · intro k hk
      rw [Finset.mem_range] at hk
      rw [Finset.mem_filter, mem_triF]
      show m - k + k < m + 1 ∧ ¬ m - k + k < m
      omega
    · intro a ha
      rw [Finset.mem_filter, mem_triF] at ha
      have h1 : a.1 + a.2 < m + 1 := ha.1
      have h2 : ¬ a.1 + a.2 < m := ha.2
      show (m - a.2, a.2) = a
      have h3 : m - a.2 = a.1 := by omega
      rw [h3]
    · intro k _
      rfl
    · intro a ha
      rw [Finset.mem_filter, mem_triF] at ha
      have h1 : a.1 + a.2 < m + 1 := ha.1
      have h2 : ¬ a.1 + a.2 < m := ha.2
      have h3 : m - a.2 = a.1 := by omega
      show chi e (dEdge ν fi a.1 a.2) = chi e (dEdge ν fi (m - a.2) a.2)
      rw [h3]

/-- The 3ν² edge slots of one face count every interior lattice edge twice
and every boundary sub-edge once. -/
theorem count_face (ν fi : ℕ) (hν : 1 ≤ ν) (hf : fi < 20) (e : Sym2 VKey) :
    ((keyFacesOf ν fi).flatMap keyEdgesOfTri).count e
      = 2 * ((intH ν fi).count e + (intV ν fi).count e + (intD ν fi).count e)
        + (((List.range ν).map
              (subEdge ν (edgeIndex (faceAt fi).1 (faceAt fi).2.1))).count e
          + ((List.range ν).map
              (subEdge ν (edgeIndex (faceAt fi).1 (faceAt fi).2.2))).count e
          + ((List.range ν).map
              (subEdge ν (edgeIndex (faceAt fi).2.1 (faceAt fi).2.2))).count e) := by
  obtain ⟨hA, hB, hC, hab, hac, hbc, hEab, hEac, hEbc, _⟩ := faceOK_all fi hf
  obtain ⟨n, rfl⟩ : ∃ n, ν = n + 1 := ⟨ν - 1, by omega⟩
  have hbAB : ∑ k ∈ Finset.range (n + 1), chi e (hEdge (n + 1) fi k 0)
      = ((List.range (n + 1)).map
          (subEdge (n + 1) (edgeIndex (faceAt fi).1 (faceAt fi).2.1))).count e := by
    refine sum_chi_side hν hEab hab (fun k => hEdge (n + 1) fi k 0) e ?_
    intro k hk
    show s(kf (n + 1) fi k 0, kf (n + 1) fi (k + 1) 0)
        = s(sideKey (n + 1) (faceAt fi).1 (faceAt fi).2.1 k,
            sideKey (n + 1) (faceAt fi).1 (faceAt fi).2.1 (k + 1))
    rw [kf_side_ab (n + 1) fi k hν (by omega),
      kf_side_ab (n + 1) fi (k + 1) hν (by omega)]
  have hbAC : ∑ k ∈ Finset.range (n + 1), chi e (vEdge (n + 1) fi 0 k)
      = ((List.range (n + 1)).map
          (subEdge (n + 1) (edgeIndex (faceAt fi).1 (faceAt fi).2.2))).count e := by
    refine sum_chi_side hν hEac hac (fun k => vEdge (n + 1) fi 0 k) e ?_
    intro k hk
    show s(kf (n + 1) fi 0 k, kf (n + 1) fi 0 (k + 1))
        = s(sideKey (n + 1) (faceAt fi).1 (faceAt fi).2.2 k,
            sideKey (n + 1) (faceAt fi).1 (faceAt fi).2.2 (k + 1))
    rw [kf_side_ac (n + 1) fi k hν (by omega),
      kf_side_ac (n + 1) fi (k + 1) hν (by omega)]
  have hbBC : ∑ k ∈ Finset.range (n + 1), chi e (dEdge (n + 1) fi (n - k) k)
      = ((List.range (n + 1)).map
          (subEdge (n + 1) (edgeIndex (faceAt fi).2.1 (faceAt fi).2.2))).count e := by
    refine sum_chi_side hν hEbc hbc (fun k => dEdge (n + 1) fi (n - k) k) e ?_
    intro k hk
    show s(kf (n + 1) fi (n - k + 1) k, kf (n + 1) fi (n - k) (k + 1))
        = s(sideKey (n + 1) (faceAt fi).2.1 (faceAt fi).2.2 k,
            sideKey (n + 1) (faceAt fi).2.1 (faceAt fi).2.2 (k + 1))
    have e1 : n - k + 1 = n + 1 - k := by omega
    have e2 : n - k = n + 1 - (k + 1) := by omega
    rw [e1, kf_side_bc (n + 1) fi k hν (by omega), e2,
      kf_side_bc (n + 1) fi (k + 1) hν (by omega)]
  have hiH : (intH (n + 1) fi).count e
      = ∑ p ∈ triF n, chi e (hEdge (n + 1) fi p.1 (p.2 + 1)) := by
    have h := count_intH (n + 1) fi e
    simp only [Nat.add_sub_cancel] at h
    exact h
  have hiV : (intV (n + 1) fi).count e
      = ∑ p ∈ triF n, chi e (vEdge (n + 1) fi (p.1 + 1) p.2) := by
    have h := count_intV (n + 1) fi e
    simp only [Nat.add_sub_cancel] at h
    exact h
  have hiD : (intD (n + 1) fi).count e
      = ∑ p ∈ triF n, chi e (dEdge (n + 1) fi p.1 p.2) := by
    have h := count_intD (n + 1) fi e
    simp only [Nat.add_sub_cancel] at h
    exact h
  have hsplitUp : ∑ p ∈ triF (n + 1), (chi e (hEdge (n + 1) fi p.1 p.2)
        + chi e (dEdge (n + 1) fi p.1 p.2) + chi e (vEdge (n + 1) fi p.1 p.2))
      = (∑ p ∈ triF (n + 1), chi e (hEdge (n + 1) fi p.1 p.2))
        + (∑ p ∈ triF (n + 1), chi e (dEdge (n + 1) fi p.1 p.2))
        + (∑ p ∈ triF (n + 1), chi e (vEdge (n + 1) fi p.1 p.2)) := by
    rw [Finset.sum_add_distrib, Finset.sum_add_distrib]
  have hsplitDown : ∑ p ∈ triF n, (chi e (vEdge (n + 1) fi (p.1 + 1) p.2)
        + chi e (hEdge (n + 1) fi p.1 (p.2 + 1)) + chi e (dEdge (n + 1) fi p.1 p.2))
      = (∑ p ∈ triF n, chi e (vEdge (n + 1) fi (p.1 + 1) p.2))
        + (∑ p ∈ triF n, chi e (hEdge (n + 1) fi p.1 (p.2 + 1)))
        + (∑ p ∈ triF n, chi e (dEdge (n + 1) fi p.1 p.2)) := by
    rw [Finset.sum_add_distrib, Finset.sum_add_distrib]
  unfold keyFacesOf
  rw [List.flatMap_append, List.count_append, count_up, count_down]
  simp only [Nat.add_sub_cancel]
  rw [hsplitUp, hsplitDown, splitH n (n + 1) fi e, splitV n (n + 1) fi e,
    splitD n (n + 1) fi e, hiH, hiV, hiD, hbAB, hbAC, hbBC]
  ring

/-- Claim A of the manifold property: every key edge is listed in the mesh's
edge slots exactly twice as often as in the duplicate-free edge list. -/
theorem count_keyEdges (ν : ℕ) (hν : 1 ≤ ν) (e : Sym2 VKey) :
    (keyEdges ν).count e = 2 * (dEdges ν).count e := by
  have hL : (keyEdges ν).count e
      = ∑ fi ∈ Finset.range 20,
          (2 * ((intH ν fi).count e + (intV ν fi).count e + (intD ν fi).count e)
            + (((List.range ν).map
                  (subEdge ν (edgeIndex (faceAt fi).1 (faceAt fi).2.1))).count e
              + ((List.range ν).map
                  (subEdge ν (edgeIndex (faceAt fi).1 (faceAt fi).2.2))).count e
              + ((List.range ν).map
                  (subEdge ν (edgeIndex (faceAt fi).2.1 (faceAt fi).2.2))).count e)) := by
    unfold keyEdges keyFaces
    rw [List.flatMap_assoc, List.count_flatMap, listSum_range]
    refine Finset.sum_congr rfl (fun fi hfi => ?_)
    exact count_face ν fi hν (Finset.mem_range.mp hfi) e
  have hInt : (intEdges ν).count e
      = ∑ fi ∈ Finset.range 20,
          ((intH ν fi).count e + (intV ν fi).count e + (intD ν fi).count e) := by
    unfold intEdges
    rw [List.count_flatMap, listSum_range]
    refine Finset.sum_congr rfl (fun fi _ => ?_)
    show (intH ν fi ++ intV ν fi ++ intD ν fi).count e
        = (intH ν fi).count e + (intV ν fi).count e + (intD ν fi).count e
    rw [List.count_append, List.count_append]
  have hSub : (subEdges ν).count e
      = ∑ E ∈ Finset.range 30, ((List.range ν).map (subEdge ν E)).count e := by
    unfold subEdges
    rw [List.count_flatMap, listSum_range]
    exact Finset.sum_congr rfl (fun E _ => rfl)
  have h1 : (sideList.map
        (fun E => ((List.range ν).map (subEdge ν E)).count e)).sum
      = ∑ fi ∈ Finset.range 20,
          (((List.range ν).map
              (subEdge ν (edgeIndex (faceAt fi).1 (faceAt fi).2.1))).count e
            + ((List.range ν).map
                (subEdge ν (edgeIndex (faceAt fi).1 (faceAt fi).2.2))).count e
            + ((List.range ν).map
                (subEdge ν (edgeIndex (faceAt fi).2.1 (faceAt fi).2.2))).count e) := by
    unfold sideList
    rw [List.map_flatMap, sum_flatMap_map, listSum_range]
    refine Finset.sum_congr rfl (fun fi _ => ?_)
    show ((List.range ν).map
          (subEdge ν (edgeIndex (faceAt fi).1 (faceAt fi).2.1))).count e
        + (((List.range ν).map
            (subEdge ν (edgeIndex (faceAt fi).1 (faceAt fi).2.2))).count e
          + (((List.range ν).map
              (subEdge ν (edgeIndex (faceAt fi).2.1 (faceAt fi).2.2))).count e + 0))
        = _
    omega
  have h2 : (sideList.map
        (fun E => ((List.range ν).map (subEdge ν E)).count e)).sum
      = ∑ E ∈ Finset.range 30,
          sideList.count E * ((List.range ν).map (subEdge ν E)).count e :=
    sum_count_weighted sideList 30 sideList_lt _
  have h3 : ∑ E ∈ Finset.range 30,
        sideList.count E * ((List.range ν).map (subEdge ν E)).count e
      = ∑ E ∈ Finset.range 30, 2 * ((List.range ν).map (subEdge ν E)).count e := by
    refine Finset.sum_congr rfl (fun E hE => ?_)
    rw [sideList_count E (Finset.mem_range.mp hE)]
  have h4 : ∑ E ∈ Finset.range 30, 2 * ((List.range ν).map (subEdge ν E)).count e
      = 2 * ∑ E ∈ Finset.range 30, ((List.range ν).map (subEdge ν E)).count e :=
    (Finset.mul_sum _ _ _).symm
  have hSide := h1.symm.trans (h2.trans (h3.trans h4))
  rw [hL]
  unfold dEdges
  rw [List.count_append, hInt, hSub, Finset.sum_add_distrib, hSide,
    ← Finset.mul_sum]
  ring

/-! ### No duplicates in the edge list: sub-edges -/

theorem icoEdges_getD_inj : ∀ E, E < 30 → ∀ F, F < 30 →
    icoEdges.getD E (0, 0) = icoEdges.getD F (0, 0) → E = F := by decide

theorem ekey_inj {ν E k l : ℕ} (hν : 1 ≤ ν) (hE : E < 30)
    (hk : k ≤ ν) (hl : l ≤ ν) (h : ekey ν E k = ekey ν E l) : k = l := by
  obtain ⟨hlt, _⟩ := icoEdges_sorted E hE
  unfold ekey at h
  split_ifs at h <;>
    first
      | omega
      | exact VKey.noConfusion h
      | (simp only [VKey.corner.injEq] at h ; omega)
      | (simp only [VKey.onEdge.injEq] at h ; omega)

theorem subEdge_inj_k {ν E k l : ℕ} (hν : 1 ≤ ν) (hE : E < 30)
    (hk : k < ν) (hl : l < ν) (h : subEdge ν E k = subEdge ν E l) : k = l := by
  unfold subEdge at h
  rw [Sym2.eq_iff] at h
  rcases h with ⟨h1, h2⟩ | ⟨h1, h2⟩
  · exact ekey_inj hν hE (by omega) (by omega) h1
  · have a1 := ekey_inj hν hE (by omega) (by omega) h1
    have a2 := ekey_inj hν hE (by omega) (by omega) h2
    omega

theorem subEdge_inj {ν E F k l : ℕ} (hν : 1 ≤ ν) (hE : E < 30) (hF : F < 30)
    (hk : k < ν) (hl : l < ν) (h : subEdge ν E k = subEdge ν F l) :
    E = F ∧ k = l := by
  by_cases hEF : E = F
  · subst hEF
    exact ⟨rfl, subEdge_inj_k hν hE hk hl h⟩
  · exfalso
    obtain ⟨sE1, sE2⟩ := icoEdges_sorted E hE
    obtain ⟨sF1, sF2⟩ := icoEdges_sorted F hF
    rcases Nat.lt_or_ge ν 2 with h1 | h2
    · have hν1 : ν = 1 := by omega
      subst hν1
      have hk0 : k = 0 := by omega
      have hl0 : l = 0 := by omega
      subst hk0
      subst hl0
      have hsE : subEdge 1 E 0 = s(VKey.corner (icoEdges.getD E (0, 0)).1,
          VKey.corner (icoEdges.getD E (0, 0)).2) := rfl
      have hsF : subEdge 1 F 0 = s(VKey.corner (icoEdges.getD F (0, 0)).1,
          VKey.corner (icoEdges.getD F (0, 0)).2) := rfl
      rw [hsE, hsF, Sym2.eq_iff] at h
      rcases h with ⟨h1', h2'⟩ | ⟨h1', h2'⟩ <;>
        simp only [VKey.corner.injEq] at h1' h2'
      · exact hEF (icoEdges_getD_inj E hE F hF (Prod.ext h1' h2'))
      · omega
    · unfold subEdge ekey at h
      rw [Sym2.eq_iff] at h
      split_ifs at h <;>
        rcases h with ⟨h1', h2'⟩ | ⟨h1', h2'⟩ <;>
        first
          | contradiction
          | exact VKey.noConfusion h1'
          | exact VKey.noConfusion h2'
          | (simp only [VKey.corner.injEq, VKey.onEdge.injEq] at h1' h2' <;> omega)

theorem subEdges_nodup (ν : ℕ) (hν : 1 ≤ ν) : (subEdges ν).Nodup := by
  unfold subEdges
  rw [List.nodup_flatMap]
  constructor
  · intro E hE
    rw [List.mem_range] at hE
    refine List.Nodup.map_on ?_ (List.nodup_range ν)
    intro x hx y hy hxy
    rw [List.mem_range] at hx hy
    exact subEdge_inj_k hν hE hx hy hxy
  · refine List.Pairwise.imp_of_mem ?_ (List.pairwise_lt_range 30)
    intro E F hE hF hlt
    rw [List.mem_range] at hE hF
    show List.Disjoint _ _
    rw [List.disjoint_left]
    intro x hxE hxF
    rcases List.mem_map.mp hxE with ⟨k, hk, rfl⟩
    rcases List.mem_map.mp hxF with ⟨l, hl, hx⟩
    rw [List.mem_range] at hk hl
    have hEq := subEdge_inj hν hE hF hk hl hx.symm
    omega

/-! ### No duplicates in the edge list: interior edges -/

theorem kf_ne_corner {ν fi a b w : ℕ} (hν : 1 ≤ ν) (hab : a + b ≤ ν)
    (h1 : ¬(a = 0 ∧ b = 0)) (h2 : ¬(a = ν ∧ b = 0)) (h3 : ¬(a = 0 ∧ b = ν)) :
    kf ν fi a b ≠ VKey.corner w := by
  rcases @kf_cases ν fi _ _ hν hab with
    ⟨c1, c2, hk⟩ | ⟨c1, c2, hk⟩ | ⟨c1, c2, hk⟩ | ⟨c1, c2, c3, hk⟩ |
    ⟨c1, c2, c3, hk⟩ | ⟨c1, c2, c3, hk⟩ | ⟨c1, c2, c3, hk⟩
  · exact absurd ⟨c1, c2⟩ h1
  · exact absurd ⟨c1, c2⟩ h2
  · exact absurd ⟨c1, c2⟩ h3
  · rw [hk] ; exact edgeKey_ne_corner ν _ _ a w
  · rw [hk] ; exact edgeKey_ne_corner ν _ _ b w
  · rw [hk] ; exact edgeKey_ne_corner ν _ _ b w
  · rw [hk] ; simp

theorem kf_eq_onEdge {ν fi a b E o : ℕ} (hν : 1 ≤ ν) (hab : a + b ≤ ν)
    (h : kf ν fi a b = VKey.onEdge E o) :
    (b = 0 ∧ E = eab fi) ∨ (a = 0 ∧ E = eac fi) ∨ (a + b = ν ∧ E = ebc fi) := by
  rcases @kf_cases ν fi _ _ hν hab with
    ⟨c1, c2, hk⟩ | ⟨c1, c2, hk⟩ | ⟨c1, c2, hk⟩ | ⟨c1, c2, c3, hk⟩ |
    ⟨c1, c2, c3, hk⟩ | ⟨c1, c2, c3, hk⟩ | ⟨c1, c2, c3, hk⟩
  · rw [hk] at h ; exact VKey.noConfusion h
  · rw [hk] at h ; exact VKey.noConfusion h
  · rw [hk] at h ; exact VKey.noConfusion h
  · rw [hk] at h
    unfold edgeKey at h
    split_ifs at h <;> simp only [VKey.onEdge.injEq] at h <;>
      exact Or.inl ⟨c3, h.1.symm⟩
  · rw [hk] at h
    unfold edgeKey at h
    split_ifs at h <;> simp only [VKey.onEdge.injEq] at h <;>
      exact Or.inr (Or.inl ⟨c3, h.1.symm⟩)
  · rw [hk] at h
    unfold edgeKey at h
    split_ifs at h <;> simp only [VKey.onEdge.injEq] at h <;>
      exact Or.inr (Or.inr ⟨c3, h.1.symm⟩)
  · rw [hk] at h ; exact VKey.noConfusion h

theorem cornerAt_none {ν fi a b : ℕ} (h1 : ¬(a = 0 ∧ b = 0))
    (h2 : ¬(a = ν ∧ b = 0)) (h3 : ¬(a = 0 ∧ b = ν)) :
    cornerAt ν fi a b = none := by
  unfold cornerAt
  rw [if_neg h1, if_neg h2, if_neg h3]

theorem cornerAt_none_elim {ν fi a b : ℕ} (h : cornerAt ν fi a b = none) :
    ¬(a = 0 ∧ b = 0) ∧ ¬(a = ν ∧ b = 0) ∧ ¬(a = 0 ∧ b = ν) := by
  unfold cornerAt at h
  by_cases c1 : a = 0 ∧ b = 0
  · rw [if_pos c1] at h
    exact Option.noConfusion h
  · by_cases c2 : a = ν ∧ b = 0
    · rw [if_neg c1, if_pos c2] at h
      exact Option.noConfusion h
    · by_cases c3 : a = 0 ∧ b = ν
      · rw [if_neg c1, if_neg c2, if_pos c3] at h
        exact Option.noConfusion h
      · exact ⟨c1, c2, c3⟩

theorem kf_ne_corner_of_none {ν fi a b w : ℕ} (hν : 1 ≤ ν) (hab : a + b ≤ ν)
    (hnc : cornerAt ν fi a b = none) : kf ν fi a b ≠ VKey.corner w := by
  obtain ⟨h1, h2, h3⟩ := cornerAt_none_elim hnc
  exact kf_ne_corner hν hab h1 h2 h3

theorem onSide_slots {ν fi a b s t o : ℕ} (h : onSide ν fi a b s t o) :
    (b = 0 ∧ s = (faceAt fi).1 ∧ t = (faceAt fi).2.1) ∨
    (a = 0 ∧ s = (faceAt fi).1 ∧ t = (faceAt fi).2.2) ∨
    (a + b = ν ∧ s = (faceAt fi).2.1 ∧ t = (faceAt fi).2.2) := by
  rcases h with ⟨h0, rfl, rfl, _⟩ | ⟨h0, rfl, rfl, _⟩ | ⟨h0, rfl, rfl, _⟩
  · exact Or.inl ⟨h0, rfl, rfl⟩
  · exact Or.inr (Or.inl ⟨h0, rfl, rfl⟩)
  · exact Or.inr (Or.inr ⟨h0, rfl, rfl⟩)

theorem onSide_index {ν fj i j s t o : ℕ} (h : onSide ν fj i j s t o) :
    edgeIndex s t ∈ [eab fj, eac fj, ebc fj] := by
  rcases h with ⟨_, rfl, rfl, _⟩ | ⟨_, rfl, rfl, _⟩ | ⟨_, rfl, rfl, _⟩
  · exact List.mem_cons_self _ _
  · exact List.mem_cons_of_mem _ (List.mem_cons_self _ _)
  · exact List.mem_cons_of_mem _ (List.mem_cons_of_mem _ (List.mem_cons_self _ _))

theorem sameLoc_common_side {ν fi i j fj i2 j2 : ℕ}
    (hnc : cornerAt ν fi i j = none) (h : SameLoc ν fi i j fj i2 j2) :
    ∃ s t s2 t2 o o2, onSide ν fi i j s t o ∧ onSide ν fj i2 j2 s2 t2 o2 ∧
      edgeIndex s t = edgeIndex s2 t2 := by
  rcases h with ⟨w, hw1, _⟩ | ⟨s, t, o, s2, t2, o2, hs1, hs2, hm⟩
  · rw [hnc] at hw1
    exact Option.noConfusion hw1
  · refine ⟨s, t, s2, t2, o, o2, hs1, hs2, ?_⟩
    rcases hm with ⟨h1, h2, _⟩ | ⟨h1, h2, _⟩
    · rw [h1, h2]
    · rw [h1, h2, edgeIndex_comm]

/-- Two distinct faces of the icosahedron share at most one edge. -/
theorem shared_sides : ∀ fi, fi < 20 → ∀ fj, fj < 20 →
    ∀ E1 ∈ [eab fi, eac fi, ebc fi], ∀ E2 ∈ [eab fi, eac fi, ebc fi],
    E1 ≠ E2 → E1 ∈ [eab fj, eac fj, ebc fj] → E2 ∈ [eab fj, eac fj, ebc fj] →
    fi = fj := by decide

theorem kf_onEdge_slot {ν fi a b X o E1 : ℕ} (hν : 1 ≤ ν) (hab : a + b ≤ ν)
    (hslot : ∀ s t o2, onSide ν fi a b s t o2 → edgeIndex s t = E1)
    (h : kf ν fi a b = VKey.onEdge X o) : X = E1 := by
  rcases kf_eq_onEdge hν hab h with ⟨hb0, hX⟩ | ⟨ha0, hX⟩ | ⟨hsum, hX⟩
  · rw [hX]
    exact hslot _ _ a (Or.inl ⟨hb0, rfl, rfl, rfl⟩)
  · rw [hX]
    exact hslot _ _ b (Or.inr (Or.inl ⟨ha0, rfl, rfl, rfl⟩))
  · rw [hX]
    exact hslot _ _ b (Or.inr (Or.inr ⟨hsum, rfl, rfl, rfl⟩))

theorem intH_nodup (ν fi : ℕ) (hν : 1 ≤ ν) (hfi : fi < 20) : (intH ν fi).Nodup := by
  unfold intH
  refine List.Nodup.map_on ?_ (nodup_ijLt (ν - 1))
  intro x hx y hy hxy
  rw [mem_ijLt] at hx hy
  simp only [hEdge] at hxy
  rw [Sym2.eq_iff] at hxy
  rcases hxy with ⟨h1, h2⟩ | ⟨h1, h2⟩
  · have a1 := kf_inj_face hν hfi (by omega) (by omega) h1
    exact Prod.ext a1.1 (by omega)
  · have a1 := kf_inj_face hν hfi (by omega) (by omega) h1
    have a2 := kf_inj_face hν hfi (by omega) (by omega) h2
    exact Prod.ext (by omega) (by omega)

theorem intV_nodup (ν fi : ℕ) (hν : 1 ≤ ν) (hfi : fi < 20) : (intV ν fi).Nodup := by
  unfold intV
  refine List.Nodup.map_on ?_ (nodup_ijLt (ν - 1))
  intro x hx y hy hxy
  rw [mem_ijLt] at hx hy
  simp only [vEdge] at hxy
  rw [Sym2.eq_iff] at hxy
  rcases hxy with ⟨h1, h2⟩ | ⟨h1, h2⟩
  · have a1 := kf_inj_face hν hfi (by omega) (by omega) h1
    exact Prod.ext (by omega) a1.2
  · have a1 := kf_inj_face hν hfi (by omega) (by omega) h1
    have a2 := kf_inj_face hν hfi (by omega) (by omega) h2
    exact Prod.ext (by omega) (by omega)

theorem intD_nodup (ν fi : ℕ) (hν : 1 ≤ ν) (hfi : fi < 20) : (intD ν fi).Nodup := by
  unfold intD
  refine List.Nodup.map_on ?_ (nodup_ijLt (ν - 1))
  intro x hx y hy hxy
  rw [mem_ijLt] at hx hy
  simp only [dEdge] at hxy
  rw [Sym2.eq_iff] at hxy
  rcases hxy with ⟨h1, h2⟩ | ⟨h1, h2⟩
  · have a1 := kf_inj_face hν hfi (by omega) (by omega) h1
    exact Prod.ext (by omega) (by omega)
  · have a1 := kf_inj_face hν hfi (by omega) (by omega) h1
    have a2 := kf_inj_face hν hfi (by omega) (by omega) h2
    exact Prod.ext (by omega) (by omega)

theorem intFace_nodup (ν fi : ℕ) (hν : 1 ≤ ν) (hfi : fi < 20) :
    (intH ν fi ++ intV ν fi ++ intD ν fi).Nodup := by
  refine List.Nodup.append (List.Nodup.append (intH_nodup ν fi hν hfi)
    (intV_nodup ν fi hν hfi) ?_) (intD_nodup ν fi hν hfi) ?_
  · rw [List.disjoint_left]
    intro x hx hx2
    rcases List.mem_map.mp hx with ⟨p, hp, rfl⟩
    rcases List.mem_map.mp hx2 with ⟨q, hq, he⟩
    rw [mem_ijLt] at hp hq
    simp only [hEdge, vEdge] at he
    rw [Sym2.eq_iff] at he
    rcases he with ⟨h1, h2⟩ | ⟨h1, h2⟩
    · have a1 := kf_inj_face hν hfi (by omega) (by omega) h1
      have a2 := kf_inj_face hν hfi (by omega) (by omega) h2
      omega
    · have a1 := kf_inj_face hν hfi (by omega) (by omega) h1
      have a2 := kf_inj_face hν hfi (by omega) (by omega) h2
      omega
  · rw [List.disjoint_left]
    intro x hx hx2
    rcases List.mem_map.mp hx2 with ⟨q, hq, he⟩
    rw [mem_ijLt] at hq
    rw [List.mem_append] at hx
    rcases hx with hxH | hxV
    · rcases List.mem_map.mp hxH with ⟨p, hp, rfl⟩
      rw [mem_ijLt] at hp
      simp only [hEdge, dEdge] at he
      rw [Sym2.eq_iff] at he
      rcases he with ⟨h1, h2⟩ | ⟨h1, h2⟩
      · have a1 := kf_inj_face hν hfi (by omega) (by omega) h1
        have a2 := kf_inj_face hν hfi (by omega) (by omega) h2
        omega
      · have a1 := kf_inj_face hν hfi (by omega) (by omega) h1
        have a2 := kf_inj_face hν hfi (by omega) (by omega) h2
        omega
    · rcases List.mem_map.mp hxV with ⟨p, hp, rfl⟩
      rw [mem_ijLt] at hp
      simp only [vEdge, dEdge] at he
      rw [Sym2.eq_iff] at he
      rcases he with ⟨h1, h2⟩ | ⟨h1, h2⟩
      · have a1 := kf_inj_face hν hfi (by omega) (by omega) h1
        have a2 := kf_inj_face hν hfi (by omega) (by omega) h2
        omega
      · have a1 := kf_inj_face hν hfi (by omega) (by omega) h1
        have a2 := kf_inj_face hν hfi (by omega) (by omega) h2
        omega

/-- Every interior lattice edge of a face joins two non-corner points, and
its two endpoints never lie on a common side; the sides they can lie on are
two fixed distinct sides of the face. -/
theorem int_elem_rep {ν fi : ℕ} (hν : 1 ≤ ν) (hfi : fi < 20) {x : Sym2 VKey}
    (hx : x ∈ intH ν fi ++ intV ν fi ++ intD ν fi) :
    ∃ a1 b1 a2 b2 E1 E2, x = s(kf ν fi a1 b1, kf ν fi a2 b2) ∧
      a1 + b1 ≤ ν ∧ a2 + b2 ≤ ν ∧
      cornerAt ν fi a1 b1 = none ∧ cornerAt ν fi a2 b2 = none ∧
      (∀ s t o, onSide ν fi a1 b1 s t o → edgeIndex s t = E1) ∧
      (∀ s t o, onSide ν fi a2 b2 s t o → edgeIndex s t = E2) ∧
      E1 ∈ [eab fi, eac fi, ebc fi] ∧ E2 ∈ [eab fi, eac fi, ebc fi] ∧
      E1 ≠ E2 := by
  obtain ⟨hd1, hd2, hd3⟩ : eab fi ≠ eac fi ∧ eab fi ≠ ebc fi ∧ eac fi ≠ ebc fi := by
    obtain ⟨_, _, _, _, _, _, _, _, _, d1, d2, d3⟩ := faceOK_all fi hfi
    exact ⟨d1, d2, d3⟩
  rw [List.mem_append, List.mem_append] at hx
  rcases hx with (hxH | hxV) | hxD
  · rcases List.mem_map.mp hxH with ⟨p, hp, rfl⟩
    rw [mem_ijLt] at hp
    refine ⟨p.1, p.2 + 1, p.1 + 1, p.2 + 1, eac fi, ebc fi, rfl, by omega, by omega,
      cornerAt_none (by omega) (by omega) (by omega),
      cornerAt_none (by omega) (by omega) (by omega), ?_, ?_,
      List.mem_cons_of_mem _ (List.mem_cons_self _ _),
      List.mem_cons_of_mem _ (List.mem_cons_of_mem _ (List.mem_cons_self _ _)),
      hd3⟩
    · intro s t o hs
      rcases onSide_slots hs with ⟨h0, rfl, rfl⟩ | ⟨h0, rfl, rfl⟩ | ⟨h0, rfl, rfl⟩
      · omega
      · rfl
      · omega
    · intro s t o hs
      rcases onSide_slots hs with ⟨h0, rfl, rfl⟩ | ⟨h0, rfl, rfl⟩ | ⟨h0, rfl, rfl⟩
      · omega
      · omega
      · rfl
  · rcases List.mem_map.mp hxV with ⟨p, hp, rfl⟩
    rw [mem_ijLt] at hp
    refine ⟨p.1 + 1, p.2, p.1 + 1, p.2 + 1, eab fi, ebc fi, rfl, by omega, by omega,
      cornerAt_none (by omega) (by omega) (by omega),
      cornerAt_none (by omega) (by omega) (by omega), ?_, ?_,
      List.mem_cons_self _ _,
      List.mem_cons_of_mem _ (List.mem_cons_of_mem _ (List.mem_cons_self _ _)),
      hd2⟩
    · intro s t o hs
      rcases onSide_slots hs with ⟨h0, rfl, rfl⟩ | ⟨h0, rfl, rfl⟩ | ⟨h0, rfl, rfl⟩
      · rfl
      · omega
      · omega
    · intro s t o hs
      rcases onSide_slots hs with ⟨h0, rfl, rfl⟩ | ⟨h0, rfl, rfl⟩ | ⟨h0, rfl, rfl⟩
      · omega
      · omega
      · rfl
  · rcases List.mem_map.mp hxD with ⟨p, hp, rfl⟩
    rw [mem_ijLt] at hp
    refine ⟨p.1 + 1, p.2, p.1, p.2 + 1, eab fi, eac fi, rfl, by omega, by omega,
      cornerAt_none (by omega) (by omega) (by omega),
      cornerAt_none (by omega) (by omega) (by omega), ?_, ?_,
      List.mem_cons_self _ _,
      List.mem_cons_of_mem _ (List.mem_cons_self _ _),
      hd1⟩
    · intro s t o hs
      rcases onSide_slots hs with ⟨h0, rfl, rfl⟩ | ⟨h0, rfl, rfl⟩ | ⟨h0, rfl, rfl⟩
      · rfl
      · omega
      · omega
    · intro s t o hs
      rcases onSide_slots hs with ⟨h0, rfl, rfl⟩ | ⟨h0, rfl, rfl⟩ | ⟨h0, rfl, rfl⟩
      · omega
      · rfl
      · omega

theorem cross_face_core {ν fi fj a1 b1 a2 b2 c1 d1 c2 d2 E1 E2 : ℕ}
    (hν : 1 ≤ ν) (hfi : fi < 20) (hfj : fj < 20)
    (hP1 : a1 + b1 ≤ ν) (hP2 : a2 + b2 ≤ ν)
    (hQ1 : c1 + d1 ≤ ν) (hQ2 : c2 + d2 ≤ ν)
    (hnc1 : cornerAt ν fi a1 b1 = none) (hnc2 : cornerAt ν fi a2 b2 = none)
    (hslot1 : ∀ s t o, onSide ν fi a1 b1 s t o → edgeIndex s t = E1)
    (hslot2 : ∀ s t o, onSide ν fi a2 b2 s t o → edgeIndex s t = E2)
    (hE1m : E1 ∈ [eab fi, eac fi, ebc fi]) (hE2m : E2 ∈ [eab fi, eac fi, ebc fi])
    (hE12 : E1 ≠ E2)
    (h1 : kf ν fi a1 b1 = kf ν fj c1 d1) (h2 : kf ν fi a2 b2 = kf ν fj c2 d2) :
    fi = fj := by
  rcases sameLoc_of_kf_eq hν hfi hfj hP1 hQ1 h1 with ⟨rfl, _, _⟩ | hsl1
  · rfl
  · rcases sameLoc_of_kf_eq hν hfi hfj hP2 hQ2 h2 with ⟨rfl, _, _⟩ | hsl2
    · rfl
    · obtain ⟨s, t, s2, t2, o, o2, hs1, hs2, hidx⟩ := sameLoc_common_side hnc1 hsl1
      obtain ⟨s', t', s2', t2', o', o2', hs1', hs2', hidx'⟩ :=
        sameLoc_common_side hnc2 hsl2
      have he1 : E1 = edgeIndex s2 t2 := (hslot1 s t o hs1).symm.trans hidx
      have he2 : E2 = edgeIndex s2' t2' := (hslot2 s' t' o' hs1').symm.trans hidx'
      have hm1 : E1 ∈ [eab fj, eac fj, ebc fj] := by
        rw [he1]
        exact onSide_index hs2
      have hm2 : E2 ∈ [eab fj, eac fj, ebc fj] := by
        rw [he2]
        exact onSide_index hs2'
      exact shared_sides fi hfi fj hfj E1 hE1m E2 hE2m hE12 hm1 hm2

theorem intEdges_nodup (ν : ℕ) (hν : 1 ≤ ν) : (intEdges ν).Nodup := by
  unfold intEdges
  rw [List.nodup_flatMap]
  constructor
  · intro fi hfi
    rw [List.mem_range] at hfi
    exact intFace_nodup ν fi hν hfi
  · refine List.Pairwise.imp_of_mem ?_ (List.pairwise_lt_range 20)
    intro fi fj hfi hfj hlt
    rw [List.mem_range] at hfi hfj
    show List.Disjoint _ _
    rw [List.disjoint_left]
    intro x hxi hxj
    obtain ⟨a1, b1, a2, b2, E1, E2, hxe, hP1, hP2, hnc1, hnc2, hslot1, hslot2,
      hE1m, hE2m, hE12⟩ := int_elem_rep hν hfi hxi
    obtain ⟨c1, d1, c2, d2, F1, F2, hye, hQ1, hQ2, _, _, _, _, _, _, _⟩ :=
      int_elem_rep hν hfj hxj
    rw [hxe] at hye
    rw [Sym2.eq_iff] at hye
    have hfeq : fi = fj := by
      rcases hye with ⟨h1, h2⟩ | ⟨h1, h2⟩
      · exact cross_face_core hν hfi hfj hP1 hP2 hQ1 hQ2 hnc1 hnc2
          hslot1 hslot2 hE1m hE2m hE12 h1 h2
      · exact cross_face_core hν hfi hfj hP1 hP2 hQ2 hQ1 hnc1 hnc2
          hslot1 hslot2 hE1m hE2m hE12 h1 h2
    omega

theorem sub_int_disjoint (ν : ℕ) (hν : 1 ≤ ν) :
    (subEdges ν).Disjoint (intEdges ν) := by
  rw [List.disjoint_left]
  intro x hxs hxi
  unfold subEdges at hxs
  rcases List.mem_flatMap.mp hxs with ⟨E, hE, hxm⟩
  rw [List.mem_range] at hE
  rcases List.mem_map.mp hxm with ⟨k, hk, hxe⟩
  rw [List.mem_range] at hk
  unfold intEdges at hxi
  rcases List.mem_flatMap.mp hxi with ⟨fi, hfi, hxm2⟩
  rw [List.mem_range] at hfi
  obtain ⟨a1, b1, a2, b2, E1, E2, hye, hP1, hP2, hnc1, hnc2, hslot1, hslot2,
    _, _, hE12⟩ := int_elem_rep hν hfi hxm2
  rw [← hxe] at hye
  unfold subEdge at hye
  rw [Sym2.eq_iff] at hye
  have hex : ∀ m a b E', a + b ≤ ν → cornerAt ν fi a b = none →
      (∀ s t o2, onSide ν fi a b s t o2 → edgeIndex s t = E') →
      ekey ν E m = kf ν fi a b → E = E' := by
    intro m a b E' hab hnc hslot he
    unfold ekey at he
    split_ifs at he
    · exact absurd he.symm (kf_ne_corner_of_none hν hab hnc)
    · exact absurd he.symm (kf_ne_corner_of_none hν hab hnc)
    · exact kf_onEdge_slot hν hab hslot he.symm
  rcases hye with ⟨h1, h2⟩ | ⟨h1, h2⟩
  · have e1 := hex k a1 b1 E1 hP1 hnc1 hslot1 h1
    have e2 := hex (k + 1) a2 b2 E2 hP2 hnc2 hslot2 h2
    exact hE12 (e1.symm.trans e2)
  · have e1 := hex k a2 b2 E2 hP2 hnc2 hslot2 h1
    have e2 := hex (k + 1) a1 b1 E1 hP1 hnc1 hslot1 h2
    exact hE12 (e2.symm.trans e1)

/-- Claim B of the manifold property: the edge list `dEdges` is
duplicate-free. -/
theorem dEdges_nodup (ν : ℕ) (hν : 1 ≤ ν) : (dEdges ν).Nodup := by
  unfold dEdges
  exact List.Nodup.append (subEdges_nodup ν hν) (intEdges_nodup ν hν)
    (sub_int_disjoint ν hν)

/-! ### Transfer from keys to global indices -/

theorem meshEdges_eq (ν : ℕ) :
    meshEdges ν = (keyEdges ν).map (Sym2.map (idx ν)) := by
  unfold meshEdges meshFaces keyEdges
  rw [List.flatMap_map, List.map_flatMap]
  apply congrArg (List.flatMap (keyFaces ν))
  funext t
  rfl

theorem keyEdges_endpoints {ν : ℕ} (hν : 1 ≤ ν) {e : Sym2 VKey}
    (he : e ∈ keyEdges ν) :
    ∃ K1 K2, K1 ∈ vkeys ν ∧ K2 ∈ vkeys ν ∧ e = s(K1, K2) := by
  unfold keyEdges keyFaces at he
  rcases List.mem_flatMap.mp he with ⟨t, ht, he2⟩
  rcases List.mem_flatMap.mp ht with ⟨fi, hfi, ht2⟩
  rw [List.mem_range] at hfi
  unfold keyFacesOf at ht2
  rw [List.mem_append] at ht2
  have hcomp : t.1 ∈ vkeys ν ∧ t.2.1 ∈ vkeys ν ∧ t.2.2 ∈ vkeys ν := by
    rcases ht2 with ht2 | ht2 <;> rcases List.mem_map.mp ht2 with ⟨p, hp, rfl⟩ <;>
      rw [mem_ijLt] at hp
    · exact ⟨@kf_mem ν fi p.1 p.2 hν hfi (by omega),
        @kf_mem ν fi (p.1 + 1) p.2 hν hfi (by omega),
        @kf_mem ν fi p.1 (p.2 + 1) hν hfi (by omega)⟩
    · exact ⟨@kf_mem ν fi (p.1 + 1) p.2 hν hfi (by omega),
        @kf_mem ν fi (p.1 + 1) (p.2 + 1) hν hfi (by omega),
        @kf_mem ν fi p.1 (p.2 + 1) hν hfi (by omega)⟩
  unfold keyEdgesOfTri at he2
  simp only [List.mem_cons, List.not_mem_nil, or_false] at he2
  rcases he2 with rfl | rfl | rfl
  · exact ⟨t.1, t.2.1, hcomp.1, hcomp.2.1, rfl⟩
  · exact ⟨t.2.1, t.2.2, hcomp.2.1, hcomp.2.2, rfl⟩
  · exact ⟨t.2.2, t.1, hcomp.2.2, hcomp.1, rfl⟩

theorem count_map_injOn {α β : Type} [DecidableEq α] [DecidableEq β]
    (l : List α) (F : α → β)
    (hinj : ∀ x ∈ l, ∀ y ∈ l, F x = F y → x = y) :
    ∀ x ∈ l, (l.map F).count (F x) = l.count x := by
  induction l with
  | nil =>
    intro x hx
    exact absurd hx (List.not_mem_nil x)
  | cons a as ih =>
    intro x hx
    have hinj' : ∀ p ∈ as, ∀ q ∈ as, F p = F q → p = q := fun p hp q hq =>
      hinj p (List.mem_cons_of_mem a hp) q (List.mem_cons_of_mem a hq)
    have hif : (if F a == F x then 1 else 0) = (if a == x then 1 else 0) := by
      by_cases hax : a = x
      · rw [hax]
        simp
      · have hFax : ¬ F a = F x := fun hFe =>
          hax (hinj a (List.mem_cons_self a as) x hx hFe)
        rw [if_neg (by simpa using hFax), if_neg (by simpa using hax)]
    rw [List.map_cons, List.count_cons, List.count_cons, hif]
    by_cases hxas : x ∈ as
    · rw [ih hinj' x hxas]
    · have hax : x = a := by
        rcases List.mem_cons.mp hx with h | h
        · exact h
        · exact absurd h hxas
      have h0 : as.count x = 0 := List.count_eq_zero.mpr hxas
      have h1 : (as.map F).count (F x) = 0 := by
        rw [List.count_eq_zero]
        intro hmem
        rcases List.mem_map.mp hmem with ⟨y, hy, hFy⟩
        have hyx : y = x := hinj y (List.mem_cons_of_mem a hy) x hx hFy
        rw [hyx] at hy
        exact hxas hy
      rw [h0, h1]

/-- Claim C2: counting each face's three undirected edges, every edge of the
mesh appears in exactly 2 faces (the mesh is a closed 2-manifold). -/
theorem C2_edge_manifold :
    ∀ ν : ℕ, 1 ≤ ν → ∀ e ∈ meshEdges ν, (meshEdges ν).count e = 2 := by
  intro ν hν e he
  have hinj : ∀ x ∈ keyEdges ν, ∀ y ∈ keyEdges ν,
      Sym2.map (idx ν) x = Sym2.map (idx ν) y → x = y := by
    intro x hx y hy hxy
    obtain ⟨K1, K2, hK1, hK2, rfl⟩ := keyEdges_endpoints hν hx
    obtain ⟨L1, L2, hL1, hL2, rfl⟩ := keyEdges_endpoints hν hy
    rw [Sym2.map_pair_eq, Sym2.map_pair_eq, Sym2.eq_iff] at hxy
    rw [Sym2.eq_iff]
    rcases hxy with ⟨h1, h2⟩ | ⟨h1, h2⟩
    · exact Or.inl ⟨idx_inj hK1 hL1 h1, idx_inj hK2 hL2 h2⟩
    · exact Or.inr ⟨idx_inj hK1 hL2 h1, idx_inj hK2 hL1 h2⟩
  rw [meshEdges_eq] at he ⊢
  rcases List.mem_map.mp he with ⟨f, hf, rfl⟩
  rw [count_map_injOn (keyEdges ν) (Sym2.map (idx ν)) hinj f hf,
    count_keyEdges ν hν f]
  have hle : (dEdges ν).count f ≤ 1 :=
    List.nodup_iff_count_le_one.mp (dEdges_nodup ν hν) f
  have hge : 0 < (keyEdges ν).count f := List.count_pos_iff.mpr hf
  rw [count_keyEdges ν hν f] at hge
  omega

theorem C2_edge_manifold_witness :
    (1 : ℕ) ≤ 1 ∧ s(0, 11) ∈ meshEdges 1 ∧ (meshEdges 1).count s(0, 11) = 2 := by
  have hm : s((0 : ℕ), 11) ∈ meshEdges 1 := by decide
  exact ⟨by norm_num, hm, C2_edge_manifold 1 (by norm_num) s(0, 11) hm⟩
